import Mathlib

/-!
Verification development for the schema-translation engine of `tosqla`
(`src/tosqla/mysqla.py`).  The Python source is shallowly embedded:

* pure string transforms (`pascal_case`, `column_name`) become Lean
  functions returning `Option String` (`none` models the `IndexError`
  raised when the code indexes into an empty segment);
* the per-table conversion loop of `ModelMaker.convert_table` becomes an
  explicit state-passing fold (`convGo`) over the column list, returning
  `Except String _` (`.error` models the `RuntimeError` raised for an
  unknown column type);
* Python `dict`s keyed by `frozenset` / tuple become insertion-ordered
  association lists; `frozenset` identity is membership equality
  (`setEqB`), and the iteration order of a `frozenset` is modelled as
  first-occurrence order of the declared values (`fsModel`) — a fixed,
  deterministic stand-in for CPython's hash-dependent iteration order;
* Python `set[str]` accumulators (`imports`, `mysql`, `pyimports`)
  become insertion-ordered duplicate-free lists (`addS`, `unionS`);
  only membership in them is ever relied upon;
* `table.indexes` (a Python set iterated in hash order) is modelled as
  an ordered list; "first match" in the index-reconciliation loop is
  first in that order.
-/

namespace Tosqla

/-! ### Generic string / list helpers modelling Python primitives -/

/-- Membership test on a list of strings (models Python `in` on a set/dict). -/
def memB (x : String) : List String → Bool
  | [] => false
  | y :: ys => if x = y then true else memB x ys

/-- Subset test `a ⊆ b` as a Boolean. -/
def subB (a b : List String) : Bool := a.all (fun x => memB x b)

/-- Equality of two value lists *as sets*: models `frozenset v1 == frozenset v2`. -/
def setEqB (a b : List String) : Bool := subB a b && subB b a

/-- First-occurrence deduplication, models building a `frozenset` from a list
while fixing the (hash-dependent) iteration order to first-occurrence order. -/
def dedupF (seen : List String) : List String → List String
  | [] => []
  | x :: xs => if memB x seen then dedupF seen xs else x :: dedupF (x :: seen) xs

/-- The modelled `frozenset` of a value list. -/
def fsModel (l : List String) : List String := dedupF [] l

/-- Add an element to a Python-set-modelling list (no-op if present). -/
def addS (x : String) (s : List String) : List String :=
  if memB x s then s else s ++ [x]

/-- Union of two Python-set-modelling lists (`s |= t`). -/
def unionS (a b : List String) : List String :=
  b.foldl (fun acc x => addS x acc) a

/-- Models `", ".join(...)`. -/
def joinCS : List String → String
  | [] => ""
  | [x] => x
  | x :: y :: rest => x ++ ", " ++ joinCS (y :: rest)

/-- Render the permitted values of an enum/set the way the source does:
`", ".join(f'"{v}"' for v in vs)`. -/
def renderVals (vs : List String) : String :=
  joinCS (vs.map (fun v => "\"" ++ v ++ "\""))

/-! ### Identifier normalizers (`pascal_case`, `column_name`) -/

/-- Models `name.split("_")` on the character list. -/
def splitUnder : List Char → List (List Char)
  | [] => [[]]
  | c :: rest =>
    let r := splitUnder rest
    if c = '_' then [] :: r
    else
      match r with
      | [] => [[c]]
      | s :: ss => (c :: s) :: ss

/-- Models `n[0].upper() + n[1:]` — `none` when the segment is empty (Python raises
`IndexError` on `n[0]`). -/
def capSeg : List Char → Option (List Char)
  | [] => none
  | c :: rest => some (c.toUpper :: rest)

/-- Models `"".join(...)` over the capitalized segments, failing if any segment fails. -/
def capSegs : List (List Char) → Option (List Char)
  | [] => some []
  | s :: rest =>
    match capSeg s, capSegs rest with
    | some c, some cs => some (c ++ cs)
    | _, _ => none

/-- Models `name.endswith("s")`. -/
def endsWithS (l : List Char) : Bool :=
  match l.getLast? with
  | some c => c = 's'
  | none => false

/-- Embeds `pascal_case` from the source:
strip-plural, dot-to-underscore, reserved-name suffixing.  `none` models the
`IndexError` raised when `name` contains an empty underscore-segment. -/
def pascal_case (name : String) : Option String :=
  match capSegs (splitUnder name.data) with
  | none => none
  | some l0 =>
    let l1 := if endsWithS l0 then l0.dropLast else l0
    let l2 := l1.map (fun c => if c = '.' then '_' else c)
    let n := String.mk l2
    some (if n = "Column" ∨ n = "Table" ∨ n = "Integer" then n ++ "Class" else n)

/-- Models `NAMES = {"class": "class_"}; NAMES.get(cname, cname)`. -/
def namesGet (s : String) : String := if s = "class" then "class_" else s

/-- The character class of `CNAMES = re.compile("[_ -()/]+")`.  Note that
` -(` is a range in the class, so it covers codepoints 0x20..0x28. -/
def isSep (c : Char) : Bool := c = '_' ∨ (' ' ≤ c ∧ c ≤ '(') ∨ c = ')' ∨ c = '/'

/-- Models `CNAMES.sub("_", name)`: every maximal run of separator characters is
replaced by a single underscore.  `prev` records whether the previous
character belonged to a separator run. -/
def collapseSeps (prev : Bool) : List Char → List Char
  | [] => []
  | c :: rest =>
    if isSep c then
      if prev then collapseSeps true rest
      else '_' :: collapseSeps true rest
    else c :: collapseSeps false rest

/-- Models the `Number = {"1": "one", ...}` lookup on the first character. -/
def numberGet (c : Char) : Option String :=
  if c = '1' then some "one" else if c = '2' then some "two"
  else if c = '3' then some "three" else if c = '4' then some "four"
  else if c = '5' then some "five" else if c = '6' then some "six"
  else if c = '7' then some "seven" else if c = '8' then some "eight"
  else if c = '9' then some "nine" else if c = '0' then some "zero"
  else none

/-- Embeds `column_name` from the source: `cname = CNAMES.sub("_", name)`,
then the reserved-word lookup, then the leading-digit spelling.  `none`
models the `IndexError` raised by `cname[0]` when the collapsed name is
empty. -/
def column_name (name : String) : Option String :=
  match (namesGet (String.mk (collapseSeps false name.data))).data with
  | [] => none
  | c :: rest =>
    match numberGet c with
    | some w => some (w ++ String.mk rest)
    | none => some (namesGet (String.mk (collapseSeps false name.data)))

/-! ### The native type model

One constructor per `isinstance` branch of the dispatch chain in
`convert_table`.  The source probes SQLAlchemy classes in a fixed order
(`DOUBLE` before `Float`, `TIMESTAMP` before `DateTime`, `Enum`/`SET`
before `String`, text family before `String`); because each reflected
column type lands in exactly one branch, a closed inductive with one
constructor per branch is a faithful embedding of the dispatch. -/

inductive TextFamily where
  | textGeneric | TEXT | MEDIUMTEXT | TINYTEXT | LONGTEXT
  deriving DecidableEq, Repr

/-- Models `typ.__class__.__name__` for the text family. -/
def TextFamily.clsName : TextFamily → String
  | .textGeneric => "Text"
  | .TEXT => "TEXT"
  | .MEDIUMTEXT => "MEDIUMTEXT"
  | .TINYTEXT => "TINYTEXT"
  | .LONGTEXT => "LONGTEXT"

inductive CharFamily where
  | VARCHAR | CHAR | StringGeneric
  deriving DecidableEq, Repr

def CharFamily.clsName : CharFamily → String
  | .VARCHAR => "VARCHAR"
  | .CHAR => "CHAR"
  | .StringGeneric => "String"

inductive BlobFamily where
  | BLOB | LONGBLOB | MEDIUMBLOB
  deriving DecidableEq, Repr

def BlobFamily.clsName : BlobFamily → String
  | .BLOB => "BLOB"
  | .LONGBLOB => "LONGBLOB"
  | .MEDIUMBLOB => "MEDIUMBLOB"

inductive SqlType where
  | double
  | float
  | integer
  | decimal (precision scale : Nat)
  | timestamp
  | datetime
  | date
  | set (values : List String)
  | enum (values : List String)
  | text (fam : TextFamily) (charset : Option String)
  | char (fam : CharFamily) (length : Nat) (charset : Option String)
  | blob (fam : BlobFamily)
  | binary (length : Nat)
  | json
  | year
  | unknown (descr : String)
  deriving DecidableEq, Repr

/-- Models `typ.__class__.__name__` (used for the `otype` field; informational). -/
def SqlType.clsName : SqlType → String
  | .double => "DOUBLE"
  | .float => "FLOAT"
  | .integer => "INTEGER"
  | .decimal _ _ => "DECIMAL"
  | .timestamp => "TIMESTAMP"
  | .datetime => "DATETIME"
  | .date => "DATE"
  | .set _ => "SET"
  | .enum _ => "ENUM"
  | .text fam _ => fam.clsName
  | .char fam _ _ => fam.clsName
  | .blob fam => fam.clsName
  | .binary _ => "BINARY"
  | .json => "JSON"
  | .year => "YEAR"
  | .unknown d => d

/-- Models `str(typ)` as interpolated into the unknown-type error message. -/
def SqlType.strRepr : SqlType → String
  | .unknown d => d
  | t => t.clsName

/-- Models `hasattr(c.type, "length")` / `c.type.length`: the SQLAlchemy types
with a `length` attribute are the string, enum/set and binary families.  For
enums/sets the reflected value is derived from the declared values; no claim
depends on the exact number, only on its being a deterministic function of
the type descriptor. -/
def SqlType.lengthAttr : SqlType → Option Nat
  | .char _ l _ => some l
  | .binary l => some l
  | .enum vs => some ((vs.map String.length).foldl max 0)
  | .set vs => some ((vs.map String.length).foldl max 0)
  | .text _ _ => some 0
  | .blob _ => some 0
  | _ => none

/-- Holds for every constructor of the closed dispatch table. -/
def SqlType.isKnown : SqlType → Bool
  | .unknown _ => false
  | _ => true

structure Column where
  name : String
  type : SqlType
  nullable : Bool
  primary_key : Bool
  index : Bool
  unique : Bool
  deriving DecidableEq, Repr

structure Index where
  name : String
  columns : List String
  unique : Bool
  deriving DecidableEq, Repr

structure Table where
  name : String
  columns : List Column
  indexes : List Index
  charset : String
  kwargs : List (String × String)
  deriving DecidableEq, Repr

/-! ### Output records -/

/-- Embeds the `ColDict` TypedDict (the per-column output record).  The
source annotates `pk: Column` but stores `c.primary_key`, a `bool`;
`max_length` conflates "attribute absent" with "attribute `None`" into
`none`/`some` of the modelled length. -/
structure ColDict where
  name : String
  type : String
  pytype : String
  otype : String
  nullable : Bool
  pk : Bool
  server_default : Option String
  index : Bool
  unique : Bool
  column_name : String
  max_length : Option Nat
  deriving DecidableEq, Repr

/-- Embeds the `TableDict` TypedDict.  The source annotates
`indexes: set[str]` but stores the table's remaining `Index` objects. -/
structure TableDict where
  model : String
  name : String
  columns : List ColDict
  enums : List (String × String)
  charset : String
  indexes : List Index
  abstract : Bool
  with_tablename : Bool
  deriving DecidableEq, Repr

/-! ### Enum/set registries

`enums: dict[frozenset[str], str]` and `sets: dict[tuple[str, ...], str]`
are **local variables of `convert_table`**: a fresh, empty registry per
table.  They are modelled as insertion-ordered association lists;
`elookup` compares keys as sets (frozenset equality), `slookup` compares
keys as exact ordered tuples. -/

/-- Dict lookup with frozenset key identity. -/
def elookup (k : List String) : List (List String × String) → Option String
  | [] => none
  | (k', v) :: rest => if setEqB k' k then some v else elookup k rest

/-- Dict lookup with exact-tuple key identity. -/
def slookup (k : List String) : List (List String × String) → Option String
  | [] => none
  | (k', v) :: rest => if k' = k then some v else slookup k rest

/-- Models `if key not in d: d[key] = name`; then read `d[key]`. -/
def registryGetE (k : List String) (n : String) (reg : List (List String × String)) :
    String × List (List String × String) :=
  match elookup k reg with
  | some v => (v, reg)
  | none => (n, reg ++ [(k, n)])

def registryGetS (k : List String) (n : String) (reg : List (List String × String)) :
    String × List (List String × String) :=
  match slookup k reg with
  | some v => (v, reg)
  | none => (n, reg ++ [(k, n)])

/-- Python truthiness of an optional charset attribute
(`hasattr(typ, "charset") and typ.charset`). -/
def truthy : Option String → Bool
  | some s => ¬ (s = "")
  | none => false

/-- Result of one step of the type-dispatch chain: the target type
expression, the base semantic type, the server default, the symbols added
to the three accumulator sets, and the updated registries. -/
structure DOut where
  atyp : String
  pytype : String
  sd : Option String
  imps : List String
  mys : List String
  pyimps : List String
  enums : List (List String × String)
  sets : List (List String × String)
  deriving DecidableEq, Repr

/-- Models `name.startswith(("TINY", "LONG", "MEDIUM")) or name == "TEXT"`. -/
def textIsDialect (nm : String) : Bool :=
  List.isPrefixOf "TINY".data nm.data || List.isPrefixOf "LONG".data nm.data ||
    List.isPrefixOf "MEDIUM".data nm.data || nm = "TEXT"

/-- Embeds the `isinstance` dispatch chain of `convert_table` (lines
141–236 of the source), one case per branch, in source order.  `none`
models the final `else: raise RuntimeError(...)`. -/
def dispatch (charset : String) (enums sets : List (List String × String))
    (c : Column) : Option DOut :=
  match c.type with
  | .double =>
      some ⟨"DOUBLE", "float", none, ["DOUBLE"], [], [], enums, sets⟩
  | .float =>
      some ⟨"Float", "float", none, ["Float"], [], [], enums, sets⟩
  | .integer =>
      some ⟨"Integer", "int", none, ["Integer"], [], [], enums, sets⟩
  | .decimal p s =>
      some ⟨"DECIMAL(" ++ toString p ++ "," ++ toString s ++ ")", "float", none,
        ["DECIMAL"], [], [], enums, sets⟩
  | .timestamp =>
      some ⟨"TIMESTAMP", "datetime",
        some "text(\"CURRENT_TIMESTAMP ON UPDATE CURRENT_TIMESTAMP\")",
        ["TIMESTAMP", "text"], [], ["from datetime import datetime"], enums, sets⟩
  | .datetime =>
      some ⟨"DateTime", "datetime", none, ["DateTime"], [],
        ["from datetime import datetime"], enums, sets⟩
  | .date =>
      some ⟨"Date", "date", none, ["Date"], [],
        ["from datetime import date"], enums, sets⟩
  | .set vs =>
      let r := registryGetS vs ("set_" ++ c.name) sets
      some ⟨r.1, "str", none, [], ["SET"], [], enums, r.2⟩
  | .enum vs =>
      let r := registryGetE (fsModel vs) ("enum_" ++ c.name) enums
      some ⟨r.1, "str", none, ["Enum"], [], [], r.2, sets⟩
  | .text fam cs =>
      let nm0 := fam.clsName
      let atyp :=
        if truthy cs then
          if cs.getD "" ≠ charset then nm0 ++ "(charset=\"" ++ cs.getD "" ++ "\")"
          else nm0
        else if nm0 = "TEXT" then "Text" else nm0
      let nm := if truthy cs then nm0 else if nm0 = "TEXT" then "Text" else nm0
      if textIsDialect nm then
        some ⟨atyp, "str", none, [], [nm], [], enums, sets⟩
      else
        some ⟨atyp, "str", none, [nm], [], [], enums, sets⟩
  | .char fam len cs =>
      let nm0 := fam.clsName
      if truthy cs ∧ cs.getD "" ≠ charset then
        some ⟨nm0 ++ "(" ++ toString len ++ ", charset=\"" ++ cs.getD "" ++ "\")",
          "str", none, [], [nm0], [], enums, sets⟩
      else
        let nm := if nm0 = "VARCHAR" then "String" else nm0
        some ⟨nm ++ "(" ++ toString len ++ ")", "str", none, [nm], [], [], enums, sets⟩
  | .blob fam =>
      some ⟨fam.clsName, "bytes", none, [], [fam.clsName], [], enums, sets⟩
  | .binary len =>
      some ⟨"BINARY(" ++ toString len ++ ")", "bytes", none, ["BINARY"], [], [],
        enums, sets⟩
  | .json =>
      some ⟨"JSON", "str", none, ["JSON"], [], [], enums, sets⟩
  | .year =>
      some ⟨"YEAR(4)", "int", none, ["YEAR"], [], [], enums, sets⟩
  | .unknown _ => none

/-! ### Index reconciliation -/

/-- Embeds the per-column loop over `indexes` (lines 255–261): find the
first index that covers exactly one column equal to the current column,
return its uniqueness flag and the collection with that index removed
(`indexes.remove(i)` followed by `break`). -/
def reconcile (cname : String) : List Index → Option Bool × List Index
  | [] => (none, [])
  | i :: rest =>
    if i.columns.length = 1 ∧ cname ∈ i.columns then (some i.unique, rest)
    else
      let r := reconcile cname rest
      (r.1, i :: r.2)

/-! ### Per-column conversion and the table fold -/

/-- The running state of the `for c in table.columns` loop. -/
structure ConvState where
  mysql : List String
  imports : List String
  pyimports : List String
  columns : List ColDict
  enums : List (List String × String)
  sets : List (List String × String)
  indexes : List Index
  deriving DecidableEq, Repr

/-- The `ColDict` built for one column (lines 237–261): nullable wrapping
of the semantic type, flag copying, and the index-reconciliation update. -/
def recordOf (st : ConvState) (c : Column) (o : DOut) (cn : String) : ColDict :=
  let pyt := if c.nullable then o.pytype ++ " | None" else o.pytype
  let d0 : ColDict :=
    { name := c.name, type := o.atyp, pytype := pyt, otype := c.type.clsName,
      nullable := c.nullable, pk := c.primary_key, server_default := o.sd,
      index := c.index, unique := c.unique, column_name := cn,
      max_length := c.type.lengthAttr }
  match (reconcile c.name st.indexes).1 with
  | some u => { d0 with index := true, unique := u }
  | none => d0

/-- State update for one successfully dispatched column. -/
def stepState (st : ConvState) (c : Column) (o : DOut) (cn : String) : ConvState :=
  { mysql := o.mys.foldl (fun a x => addS x a) st.mysql,
    imports := o.imps.foldl (fun a x => addS x a) st.imports,
    pyimports := o.pyimps.foldl (fun a x => addS x a) st.pyimports,
    columns := st.columns ++ [recordOf st c o cn],
    enums := o.enums, sets := o.sets,
    indexes := (reconcile c.name st.indexes).2 }

/-- Models the message of the fatal error raised for an unknown type (line 236). -/
def unknownMsg (tname : String) (c : Column) : String :=
  "unknown field \"" ++ tname ++ "." ++ c.name ++ "\" " ++ c.type.strRepr

/-- One iteration of the column loop. -/
def convertColumn (tname charset : String) (st : ConvState) (c : Column) :
    Except String ConvState :=
  match dispatch charset st.enums st.sets c with
  | none => .error (unknownMsg tname c)
  | some o =>
    match column_name c.name with
    | none => .error "IndexError: string index out of range"
    | some cn => .ok (stepState st c o cn)

/-- The whole column loop. -/
def convGo (tname charset : String) (st : ConvState) : List Column → Except String ConvState
  | [] => .ok st
  | c :: rest =>
    match convertColumn tname charset st c with
    | .error e => .error e
    | .ok st' => convGo tname charset st' rest

/-- Embeds `ModelMaker.convert_table`: fold over the columns, render the
enum/set definition list (enums first, then sets, each in registry
insertion order), add the `Index` import if any index survived
reconciliation, and build the `TableDict`.  The returned triple of lists
are the per-table `imports`, `mysql` and `pyimports` sets. -/
def convert_table (t : Table) :
    Except String (TableDict × List String × List String × List String) :=
  match convGo t.name t.charset ⟨[], [], [], [], [], [], t.indexes⟩ t.columns with
  | .error e => .error e
  | .ok st =>
    match pascal_case t.name with
    | none => .error "IndexError: string index out of range"
    | some model =>
      .ok ({ model := model, name := t.name, columns := st.columns,
             enums := st.enums.map (fun q => (q.2, "Enum(" ++ renderVals q.1 ++ ")"))
                   ++ st.sets.map (fun q => (q.2, "SET(" ++ renderVals q.1 ++ ")")),
             charset := t.charset, indexes := st.indexes, abstract := false,
             with_tablename := true },
           (if st.indexes.isEmpty then st.imports else addS "Index" st.imports),
           st.mysql, st.pyimports)

/-! ### The run loop (`ModelMaker.run_tables`, minus rendering/IO) -/

/-- The pair-output of a run: the per-table records (after the seen-filter
and the `abstract`/`with_tablename` update) and the accumulated sets. -/
structure RunOut where
  tables : List TableDict
  imports : List String
  mysql : List String
  pyimports : List String
  deriving DecidableEq, Repr

/-- Models `e = []; for k in data["enums"]: if k not in enums_seen: e.append(k);
enums_seen.add(k)` — returns the filtered list and the grown seen-set. -/
def seenFilter (seen : List (String × String)) :
    List (String × String) → List (String × String) × List (String × String)
  | [] => ([], seen)
  | k :: rest =>
    if k ∈ seen then seenFilter seen rest
    else
      let r := seenFilter (k :: seen) rest
      (k :: r.1, r.2)

def runGo (wt abstract : Bool) (seen : List (String × String))
    (imports mysql pyimports : List String) :
    List Table → Except String RunOut
  | [] => .ok ⟨[], imports, mysql, pyimports⟩
  | t :: rest =>
    match convert_table t with
    | .error e => .error e
    | .ok (data, i, m, pi) =>
      match runGo wt abstract (seenFilter seen data.enums).2 (unionS imports i)
          (unionS mysql m) (unionS pyimports pi) rest with
      | .error e => .error e
      | .ok out =>
        .ok ⟨{ data with
               enums := (seenFilter seen data.enums).1,
               abstract := abstract,
               with_tablename := wt } :: out.tables,
             out.imports, out.mysql, out.pyimports⟩

/-- Embeds `ModelMaker.run_tables` (without the template rendering and the
output stream): `wt` is the maker's `with_tablename`, `abstract` the
keyword argument. -/
def run_tables (wt abstract : Bool) (tables : List Table) : Except String RunOut :=
  runGo wt abstract [] [] [] [] tables

/-! ### Schema cloner (`ModelMaker.mkcopy`) -/

/-- Longest column-name length, the termination measure for suffixing. -/
def maxLen (names : List String) : Nat :=
  names.foldr (fun s m => max s.length m) 0

theorem len_le_maxLen {s : String} {names : List String} (h : s ∈ names) :
    s.length ≤ maxLen names := by
  induction names with
  | nil => cases h
  | cons a l ih =>
    rcases List.mem_cons.mp h with rfl | h'
    · exact le_max_left _ _
    · exact le_trans (ih h') (le_max_right _ _)

/-- Models `while pkname in names: pkname = pkname + "_"` — appends `_` until the
name is free.  Terminates because each step lengthens the name and `names`
is finite. -/
def resolvePkName (names : List String) (pkname : String) : String :=
  if pkname ∈ names then resolvePkName names (pkname ++ "_") else pkname
termination_by maxLen names + 1 - pkname.length
decreasing_by
  rename_i h
  have hle : pkname.length ≤ maxLen names := len_le_maxLen h
  have : (pkname ++ "_").length = pkname.length + 1 := by
    simp [String.length_append]
    rfl
  omega

/-- Embeds `ModelMaker.mkcopy` (the `meta` registry argument has no
behavioural content in the model): demote the source primary-key columns,
prepend a fresh integer key under the collision-resolved name, add the
`fk_index` covering the former key, copy every original index, and
propagate the table kwargs.  `Column(pkname, Integer, primary_key=True)`
is non-nullable (SQLAlchemy defaults `nullable=False` for primary keys). -/
def mkcopy (t : Table) (name : String) (pkname : String) : Table :=
  let names := t.columns.map Column.name
  let pks := t.columns.filter (fun c => c.primary_key)
  let cols := t.columns.filter (fun c => ¬ c.primary_key)
  let pks' := pks.map (fun c => { c with primary_key := false })
  let pk' := if pkname ∈ names then resolvePkName names pkname else pkname
  let fk : Index := ⟨"fk_index", pks.map Column.name, false⟩
  { name := name,
    columns := ⟨pk', .integer, false, true, false, false⟩ :: (pks' ++ cols),
    indexes := fk :: t.indexes.map (fun i => ⟨i.name, i.columns, i.unique⟩),
    charset := t.charset,
    kwargs := t.kwargs }

end Tosqla

deriving instance DecidableEq for Except

namespace Tosqla

/-! ### Basic lemmas about the Python-set / frozenset models -/

theorem memB_iff {x : String} : ∀ {l : List String}, memB x l = true ↔ x ∈ l
  | [] => by simp [memB]
  | y :: ys => by
    by_cases h : x = y
    · simp [memB, h]
    · simp [memB, h, memB_iff]

theorem subB_iff {a b : List String} : subB a b = true ↔ ∀ x ∈ a, x ∈ b := by
  simp [subB, List.all_eq_true, memB_iff]

theorem setEqB_iff {a b : List String} : setEqB a b = true ↔ (∀ x, x ∈ a ↔ x ∈ b) := by
  simp only [setEqB, Bool.and_eq_true, subB_iff]
  constructor
  · rintro ⟨h1, h2⟩ x; exact ⟨fun hx => h1 x hx, fun hx => h2 x hx⟩
  · intro h; exact ⟨fun x hx => (h x).mp hx, fun x hx => (h x).mpr hx⟩

theorem setEqB_refl (a : List String) : setEqB a a = true :=
  setEqB_iff.mpr fun _ => Iff.rfl

theorem mem_dedupF {x : String} {l : List String} :
    ∀ {seen : List String}, x ∈ dedupF seen l ↔ x ∈ l ∧ ¬ x ∈ seen := by
  induction l with
  | nil => intro seen; simp [dedupF]
  | cons y ys ih =>
    intro seen
    by_cases h : memB y seen = true
    · have hy : y ∈ seen := memB_iff.mp h
      rw [show dedupF seen (y :: ys) = dedupF seen ys by simp [dedupF, h], ih]
      simp only [List.mem_cons]
      constructor
      · rintro ⟨hx, hs⟩; exact ⟨Or.inr hx, hs⟩
      · rintro ⟨hx | hx, hs⟩
        · exact absurd (hx ▸ hy) hs
        · exact ⟨hx, hs⟩
    · have hy : ¬ y ∈ seen := fun hy => h (memB_iff.mpr hy)
      rw [show dedupF seen (y :: ys) = y :: dedupF (y :: seen) ys by simp [dedupF, h]]
      simp only [List.mem_cons, ih]
      constructor
      · rintro (rfl | ⟨hx, hs⟩)
        · exact ⟨Or.inl rfl, hy⟩
        · exact ⟨Or.inr hx, fun hs' => hs (Or.inr hs')⟩
      · rintro ⟨rfl | hx, hs⟩
        · exact Or.inl rfl
        · by_cases hxy : x = y
          · exact Or.inl hxy
          · exact Or.inr ⟨hx, fun hs' => hs'.elim hxy hs⟩

theorem mem_fsModel {x : String} {l : List String} : x ∈ fsModel l ↔ x ∈ l := by
  simp [fsModel, mem_dedupF]

theorem mem_addS {y x : String} {s : List String} : y ∈ addS x s ↔ y = x ∨ y ∈ s := by
  by_cases h : memB x s = true
  · have hx : x ∈ s := memB_iff.mp h
    rw [show addS x s = s by simp [addS, h]]
    exact ⟨Or.inr, fun hc => hc.elim (fun e => e ▸ hx) id⟩
  · rw [show addS x s = s ++ [x] by simp [addS, h]]
    simp only [List.mem_append, List.mem_singleton]
    tauto

theorem self_mem_addS (x : String) (s : List String) : x ∈ addS x s :=
  mem_addS.mpr (Or.inl rfl)

theorem mem_unionS {x : String} : ∀ {b a : List String}, x ∈ unionS a b ↔ x ∈ a ∨ x ∈ b
  | [], a => by simp [unionS]
  | y :: ys, a => by
    show x ∈ unionS (addS y a) ys ↔ _
    rw [mem_unionS, mem_addS]
    simp only [List.mem_cons]
    tauto

/-! ### Lemmas about the registries -/

theorem setEqB_trans_key {k' k1 k2 : List String} (h : setEqB k1 k2 = true) :
    setEqB k' k1 = setEqB k' k2 := by
  have h12 := setEqB_iff.mp h
  by_cases h1 : setEqB k' k1 = true
  · have := setEqB_iff.mp h1
    rw [h1, Eq.symm (setEqB_iff.mpr fun x => (this x).trans (h12 x))]
  · have h2 : ¬ setEqB k' k2 = true := fun h2 => by
      have := setEqB_iff.mp h2
      exact h1 (setEqB_iff.mpr fun x => (this x).trans (h12 x).symm)
    rw [Bool.not_eq_true] at h1 h2
    rw [h1, h2]

theorem elookup_key_congr {k1 k2 : List String} (h : setEqB k1 k2 = true) :
    ∀ (l : List (List String × String)), elookup k1 l = elookup k2 l
  | [] => rfl
  | (k', v) :: rest => by
    simp only [elookup, setEqB_trans_key h, elookup_key_congr h rest]

theorem elookup_append_some {k : List String} {v : String} :
    ∀ {l : List (List String × String)} (m : List (List String × String)),
      elookup k l = some v → elookup k (l ++ m) = some v
  | [], _, h => by simp [elookup] at h
  | (k', v') :: rest, m, h => by
    by_cases hk : setEqB k' k = true
    · simp only [elookup, hk, if_true] at h ⊢; exact h
    · simp only [elookup, hk, if_false] at h ⊢
      exact elookup_append_some m h

theorem elookup_append_one {k k' : List String} {v : String} :
    ∀ {l : List (List String × String)}, elookup k l = none →
      elookup k (l ++ [(k', v)]) = if setEqB k' k then some v else none
  | [], _ => by simp [elookup]
  | (k0, v0) :: rest, h => by
    by_cases hk : setEqB k0 k = true
    · simp [elookup, hk] at h
    · simp only [elookup, hk, if_false] at h ⊢
      exact elookup_append_one h

theorem slookup_append_some {k : List String} {v : String} :
    ∀ {l : List (List String × String)} (m : List (List String × String)),
      slookup k l = some v → slookup k (l ++ m) = some v
  | [], _, h => by simp [slookup] at h
  | (k', v') :: rest, m, h => by
    by_cases hk : k' = k
    · simp only [slookup, hk, if_true] at h ⊢; exact h
    · simp only [slookup, hk, if_false] at h ⊢
      exact slookup_append_some m h

theorem slookup_append_one {k k' : List String} {v : String} :
    ∀ {l : List (List String × String)}, slookup k l = none →
      slookup k (l ++ [(k', v)]) = if k' = k then some v else none
  | [], _ => by simp [slookup]
  | (k0, v0) :: rest, h => by
    by_cases hk : k0 = k
    · simp [slookup, hk] at h
    · simp only [slookup, hk, if_false] at h ⊢
      exact slookup_append_one h

theorem registryGetE_hit {k : List String} {n v : String} {reg : List (List String × String)}
    (h : elookup k reg = some v) : registryGetE k n reg = (v, reg) := by
  simp [registryGetE, h]

theorem registryGetE_miss {k : List String} {n : String} {reg : List (List String × String)}
    (h : elookup k reg = none) : registryGetE k n reg = (n, reg ++ [(k, n)]) := by
  simp [registryGetE, h]

theorem registryGetS_hit {k : List String} {n v : String} {reg : List (List String × String)}
    (h : slookup k reg = some v) : registryGetS k n reg = (v, reg) := by
  simp [registryGetS, h]

theorem registryGetS_miss {k : List String} {n : String} {reg : List (List String × String)}
    (h : slookup k reg = none) : registryGetS k n reg = (n, reg ++ [(k, n)]) := by
  simp [registryGetS, h]

/-! ### Lemmas about `resolvePkName` (Schema Cloner collision handling) -/

theorem string_mk_append (a b : List Char) : String.mk a ++ String.mk b = String.mk (a ++ b) :=
  rfl

theorem resolve_spec_aux :
    ∀ (m : Nat) (names : List String) (pk : String), maxLen names + 1 - pk.length ≤ m →
      resolvePkName names pk ∉ names ∧
        ∃ k, resolvePkName names pk = pk ++ String.mk (List.replicate k '_') := by
  intro m
  induction m with
  | zero =>
    intro names pk hm
    have hnm : pk ∉ names := fun h => by
      have := len_le_maxLen h
      omega
    rw [resolvePkName, if_neg hnm]
    exact ⟨hnm, 0, by simp⟩
  | succ n ih =>
    intro names pk hm
    by_cases h : pk ∈ names
    · rw [resolvePkName, if_pos h]
      have hlen : (pk ++ "_").length = pk.length + 1 := by
        simp [String.length_append]; rfl
      have hle := len_le_maxLen h
      obtain ⟨hnm, k, hk⟩ := ih names (pk ++ "_") (by omega)
      refine ⟨hnm, k + 1, ?_⟩
      rw [hk]
      show (pk ++ String.mk ['_']) ++ _ = _
      rw [String.append_assoc, string_mk_append]
      rfl
    · rw [resolvePkName, if_neg h]
      exact ⟨h, 0, by simp⟩

theorem resolve_spec (names : List String) (pk : String) :
    resolvePkName names pk ∉ names ∧
      ∃ k, resolvePkName names pk = pk ++ String.mk (List.replicate k '_') :=
  resolve_spec_aux (maxLen names + 1 - pk.length) names pk le_rfl

theorem resolve_id_single : resolvePkName ["id"] "id" = "id_" := by
  rw [resolvePkName, if_pos (by decide), resolvePkName, if_neg (by decide)]
  rfl

theorem resolve_id_double : resolvePkName ["id", "id_"] "id" = "id__" := by
  rw [resolvePkName, if_pos (by decide), resolvePkName, if_pos (by decide),
    resolvePkName, if_neg (by decide)]
  rfl

/-- The column `id INT PRIMARY KEY`, used in concrete Schema Cloner examples. -/
def idIntCol : Column := ⟨"id", .integer, false, true, false, false⟩

/-- A table that already has a column named `id`. -/
def tWithId : Table := ⟨"t", [idIntCol], [], "latin1", []⟩

/-- A table with columns named `id` and `id_`. -/
def tWithIdU : Table :=
  ⟨"t", [idIntCol, ⟨"id_", .float, false, false, false, false⟩], [], "latin1", []⟩

/-- C5: the Schema Cloner resolves a primary-key-name collision by appending
`_` until the name is unique among the source columns; the resolution is a
total function (never an error): the resolved name is never one of the
source column names and is always the desired name followed by some number
of underscores.  Concretely, desired name `id` against an existing `id`
column yields `id_`, and against existing `id` and `id_` yields `id__`. -/
theorem C5_pk_collision_suffixing :
    (∀ (names : List String) (pk : String),
      resolvePkName names pk ∉ names ∧
        ∃ k, resolvePkName names pk = pk ++ String.mk (List.replicate k '_')) ∧
    (mkcopy tWithId "t_backup" "id").columns.map Column.name = ["id_", "id"] ∧
    (mkcopy tWithIdU "t_backup" "id").columns.map Column.name = ["id__", "id", "id_"] := by
  refine ⟨resolve_spec, ?_, ?_⟩
  · simp [mkcopy, tWithId, idIntCol, resolve_id_single]
  · simp [mkcopy, tWithIdU, idIntCol, resolve_id_double]

/-! ### Totality / partiality of the identifier normalizers -/

theorem capSegs_isSome : ∀ {l : List (List Char)}, (∀ s ∈ l, s ≠ []) → (capSegs l).isSome = true
  | [], _ => rfl
  | s :: rest, h => by
    have hs : s ≠ [] := h s (List.mem_cons_self _ _)
    have hr := capSegs_isSome (fun s' hs' => h s' (List.mem_cons_of_mem _ hs'))
    cases s with
    | nil => exact absurd rfl hs
    | cons c cs =>
      cases hrest : capSegs rest with
      | none => rw [hrest] at hr; cases hr
      | some l' => simp [capSegs, capSeg, hrest]

theorem capSegs_none : ∀ {l : List (List Char)}, (∃ s ∈ l, s = []) → capSegs l = none
  | [], h => by simp at h
  | s :: rest, h => by
    rcases h with ⟨s', hs', rfl⟩
    rcases List.mem_cons.mp hs' with rfl | hmem
    · simp [capSegs, capSeg]
    · have hr : capSegs rest = none := capSegs_none ⟨[], hmem, rfl⟩
      cases s with
      | nil => simp [capSegs, capSeg]
      | cons c cs => simp [capSegs, capSeg, hr]

theorem pascal_case_isSome {name : String}
    (h : ∀ seg ∈ splitUnder name.data, seg ≠ []) : (pascal_case name).isSome = true := by
  unfold pascal_case
  cases hc : capSegs (splitUnder name.data) with
  | none =>
    have := capSegs_isSome h
    rw [hc] at this
    simp at this
  | some l0 => simp

theorem pascal_case_none {name : String}
    (h : ∃ seg ∈ splitUnder name.data, seg = []) : pascal_case name = none := by
  unfold pascal_case
  rw [capSegs_none h]

theorem collapseSeps_false_ne_nil {l : List Char} (h : l ≠ []) :
    collapseSeps false l ≠ [] := by
  cases l with
  | nil => exact absurd rfl h
  | cons c rest =>
    by_cases hs : isSep c = true
    · rw [show collapseSeps false (c :: rest) = '_' :: collapseSeps true rest by
        simp [collapseSeps, hs]]
      simp
    · rw [show collapseSeps false (c :: rest) = c :: collapseSeps false rest by
        simp [collapseSeps, hs]]
      simp

theorem namesGet_data_ne_nil {s : String} (h : s.data ≠ []) : (namesGet s).data ≠ [] := by
  unfold namesGet
  by_cases hc : s = "class"
  · rw [if_pos hc]; decide
  · rw [if_neg hc]; exact h

theorem column_name_isSome {name : String} (h : name.data ≠ []) :
    (column_name name).isSome = true := by
  have h1 : (String.mk (collapseSeps false name.data)).data ≠ [] :=
    collapseSeps_false_ne_nil h
  have h2 := namesGet_data_ne_nil h1
  unfold column_name
  cases hd : (namesGet (String.mk (collapseSeps false name.data))).data with
  | nil => exact absurd hd h2
  | cons c rest =>
    cases hn : numberGet c <;> simp [hn]

/-- C10: the identifier normalizers are partial exactly as claimed.
`pascal_case` succeeds on every name all of whose underscore-segments are
non-empty, and fails (the modelled `IndexError`, `none`) on every name with
an empty segment — empty name, leading/trailing underscore, consecutive
underscores.  `column_name` inspects the first character of the
separator-collapsed name; the collapse maps a non-empty name to a non-empty
name, so the function succeeds on every non-empty name and fails exactly
on the empty string. -/
theorem C10_normalizer_partiality :
    (∀ name : String, (∀ seg ∈ splitUnder name.data, seg ≠ []) →
        (pascal_case name).isSome = true) ∧
    (∀ name : String, (∃ seg ∈ splitUnder name.data, seg = []) →
        pascal_case name = none) ∧
    (∀ name : String, name.data ≠ [] → (column_name name).isSome = true) ∧
    column_name "" = none :=
  ⟨fun _ h => pascal_case_isSome h, fun _ h => pascal_case_none h,
   fun _ h => column_name_isSome h, rfl⟩

/-- Witness for C10 at concrete inputs: `my_table` normalizes, `_bad` (empty
leading segment) fails, `order` is a valid non-empty field name. -/
theorem C10_normalizer_partiality_witness :
    ((∀ seg ∈ splitUnder ("my_table" : String).data, seg ≠ []) ∧
      (pascal_case "my_table").isSome = true) ∧
    ((∃ seg ∈ splitUnder ("_bad" : String).data, seg = []) ∧
      pascal_case "_bad" = none) ∧
    (("order" : String).data ≠ [] ∧ (column_name "order").isSome = true) :=
  ⟨⟨by decide, C10_normalizer_partiality.1 "my_table" (by decide)⟩,
   ⟨by decide, C10_normalizer_partiality.2.1 "_bad" (by decide)⟩,
   ⟨by decide, C10_normalizer_partiality.2.2.1 "order" (by decide)⟩⟩

/-! ### C6: shape of the cloned schema -/

/-- C6: the clone produced by the Schema Cloner demotes every source
primary-key column to an ordinary column, puts a fresh non-nullable integer
primary-key column first (under a name that collides with no source
column), puts the non-unique `fk_index` covering exactly the former
primary-key columns (in order) at the head of the index list, copies every
original index verbatim, and propagates the table name/charset kwargs. -/
theorem C6_clone_shape (t : Table) (nm pk : String) :
    (∀ c ∈ t.columns, c.primary_key = true →
        { c with primary_key := false } ∈ (mkcopy t nm pk).columns) ∧
    (∃ c0, ((mkcopy t nm pk).columns).head? = some c0 ∧ c0.primary_key = true ∧
        c0.type = .integer ∧ c0.nullable = false ∧
        ¬ c0.name ∈ t.columns.map Column.name) ∧
    ((mkcopy t nm pk).indexes.head? =
        some ⟨"fk_index", (t.columns.filter (fun c => c.primary_key)).map Column.name,
          false⟩) ∧
    (∀ i ∈ t.indexes, i ∈ (mkcopy t nm pk).indexes) ∧
    (mkcopy t nm pk).kwargs = t.kwargs ∧ (mkcopy t nm pk).charset = t.charset ∧
    (mkcopy t nm pk).name = nm := by
  refine ⟨?_, ?_, rfl, ?_, rfl, rfl, rfl⟩
  · intro c hc hpk
    show _ ∈ _ :: (_ ++ _)
    refine List.mem_cons_of_mem _ (List.mem_append_left _ ?_)
    exact List.mem_map_of_mem _ (List.mem_filter_of_mem hc hpk)
  · refine ⟨_, rfl, rfl, rfl, rfl, ?_⟩
    show ¬ (if pk ∈ t.columns.map Column.name then
        resolvePkName (t.columns.map Column.name) pk else pk) ∈ t.columns.map Column.name
    by_cases h : pk ∈ t.columns.map Column.name
    · rw [if_pos h]; exact (resolve_spec _ _).1
    · rw [if_neg h]; exact h
  · intro i hi
    show _ ∈ _ :: _
    refine List.mem_cons_of_mem _ ?_
    have he : (⟨i.name, i.columns, i.unique⟩ : Index) = i := by cases i; rfl
    rw [← he] at hi ⊢
    exact List.mem_map_of_mem _ (he ▸ hi)

/-- Column of `orders(order_id INT PRIMARY KEY, customer_id INT)` from the spec's
end-to-end clone example. -/
def orderIdCol : Column := ⟨"order_id", .integer, false, true, false, false⟩

def customerCol : Column := ⟨"customer_id", .integer, false, false, false, false⟩

def ordersT : Table := ⟨"orders", [orderIdCol, customerCol], [], "latin1", []⟩

/-- Witness for C6 on the spec's `orders` example. -/
theorem C6_clone_shape_witness :
    ({ orderIdCol with primary_key := false } ∈
        (mkcopy ordersT "orders_backup" "id").columns) ∧
    (mkcopy ordersT "orders_backup" "id").indexes.head? =
        some ⟨"fk_index", ["order_id"], false⟩ :=
  ⟨(C6_clone_shape ordersT "orders_backup" "id").1 orderIdCol (by decide) rfl,
   by decide⟩

/-! ### Structural lemmas about one conversion step -/

theorem recordOf_type (st : ConvState) (c : Column) (o : DOut) (cn : String) :
    (recordOf st c o cn).type = o.atyp := by
  cases h : (reconcile c.name st.indexes).1 <;> simp [recordOf, h]

theorem recordOf_pytype (st : ConvState) (c : Column) (o : DOut) (cn : String) :
    (recordOf st c o cn).pytype = if c.nullable then o.pytype ++ " | None" else o.pytype := by
  cases h : (reconcile c.name st.indexes).1 <;> simp [recordOf, h]

theorem recordOf_name (st : ConvState) (c : Column) (o : DOut) (cn : String) :
    (recordOf st c o cn).name = c.name := by
  cases h : (reconcile c.name st.indexes).1 <;> simp [recordOf, h]

theorem recordOf_sd (st : ConvState) (c : Column) (o : DOut) (cn : String) :
    (recordOf st c o cn).server_default = o.sd := by
  cases h : (reconcile c.name st.indexes).1 <;> simp [recordOf, h]

theorem recordOf_otype (st : ConvState) (c : Column) (o : DOut) (cn : String) :
    (recordOf st c o cn).otype = c.type.clsName := by
  cases h : (reconcile c.name st.indexes).1 <;> simp [recordOf, h]

theorem recordOf_index (st : ConvState) (c : Column) (o : DOut) (cn : String) :
    (recordOf st c o cn).index =
      (if (reconcile c.name st.indexes).1.isSome then true else c.index) := by
  cases h : (reconcile c.name st.indexes).1 <;> simp [recordOf, h]

theorem recordOf_unique (st : ConvState) (c : Column) (o : DOut) (cn : String) :
    (recordOf st c o cn).unique = ((reconcile c.name st.indexes).1).getD c.unique := by
  cases h : (reconcile c.name st.indexes).1 <;> simp [recordOf, h]

theorem stepState_columns (st : ConvState) (c : Column) (o : DOut) (cn : String) :
    (stepState st c o cn).columns = st.columns ++ [recordOf st c o cn] := rfl

theorem stepState_enums (st : ConvState) (c : Column) (o : DOut) (cn : String) :
    (stepState st c o cn).enums = o.enums := rfl

theorem stepState_sets (st : ConvState) (c : Column) (o : DOut) (cn : String) :
    (stepState st c o cn).sets = o.sets := rfl

theorem stepState_indexes (st : ConvState) (c : Column) (o : DOut) (cn : String) :
    (stepState st c o cn).indexes = (reconcile c.name st.indexes).2 := rfl

theorem convertColumn_ok {tname charset : String} {st : ConvState} {c : Column}
    {st' : ConvState} (h : convertColumn tname charset st c = .ok st') :
    ∃ o cn, dispatch charset st.enums st.sets c = some o ∧ column_name c.name = some cn ∧
      st' = stepState st c o cn := by
  unfold convertColumn at h
  cases hd : dispatch charset st.enums st.sets c with
  | none => rw [hd] at h; simp at h
  | some o =>
    rw [hd] at h
    cases hcn : column_name c.name with
    | none => rw [hcn] at h; simp at h
    | some cn =>
      rw [hcn] at h
      injection h with h
      exact ⟨o, cn, rfl, rfl, h.symm⟩

theorem convertColumn_eq_ok {tname charset : String} {st : ConvState} {c : Column} {o : DOut}
    {cn : String} (hd : dispatch charset st.enums st.sets c = some o)
    (hcn : column_name c.name = some cn) :
    convertColumn tname charset st c = .ok (stepState st c o cn) := by
  unfold convertColumn
  rw [hd, hcn]

theorem convGo_cons_ok {tname cs : String} {st : ConvState} {chd : Column}
    {rest : List Column} {st' : ConvState}
    (h : convGo tname cs st (chd :: rest) = .ok st') :
    ∃ st1, convertColumn tname cs st chd = .ok st1 ∧ convGo tname cs st1 rest = .ok st' := by
  cases hcv : convertColumn tname cs st chd with
  | error e =>
    rw [show convGo tname cs st (chd :: rest) = .error e by simp [convGo, hcv]] at h
    simp at h
  | ok st1 =>
    refine ⟨st1, rfl, ?_⟩
    rw [show convGo tname cs st (chd :: rest) = convGo tname cs st1 rest by
      simp [convGo, hcv]] at h
    exact h

theorem convGo_columns_mono {tname cs : String} :
    ∀ {cols : List Column} {st st' : ConvState}, convGo tname cs st cols = .ok st' →
      ∃ recs, st'.columns = st.columns ++ recs
  | [], st, st', h => by
    refine ⟨[], ?_⟩
    simp only [convGo] at h
    injection h with h
    rw [← h]
    simp
  | chd :: rest, st, st', h => by
    obtain ⟨st1, hcv, hrest⟩ := convGo_cons_ok h
    obtain ⟨o, cn, _, _, rfl⟩ := convertColumn_ok hcv
    obtain ⟨recs, hrecs⟩ := convGo_columns_mono hrest
    refine ⟨[recordOf st chd o cn] ++ recs, ?_⟩
    rw [hrecs, stepState_columns, List.append_assoc]

/-! ### Dispatch shape lemmas -/

theorem dispatch_enums_shape {cs : String} {E S : List (List String × String)} {c : Column}
    {o : DOut} (h : dispatch cs E S c = some o) :
    ((∀ vs, c.type ≠ .enum vs) ∧ o.enums = E) ∨
    (∃ ws, c.type = .enum ws ∧
      o.enums = (registryGetE (fsModel ws) ("enum_" ++ c.name) E).2 ∧
      o.atyp = (registryGetE (fsModel ws) ("enum_" ++ c.name) E).1) := by
  cases ht : c.type
  case enum vs =>
    simp only [dispatch, ht] at h
    injection h with h
    subst h
    exact Or.inr ⟨vs, rfl, rfl, rfl⟩
  all_goals
    refine Or.inl ⟨fun vs hvs => SqlType.noConfusion hvs, ?_⟩
  all_goals simp only [dispatch, ht] at h
  all_goals repeat' (split at h)
  all_goals first
  | (injection h with h; subst h; rfl)
  | (injection h)

theorem dispatch_sets_shape {cs : String} {E S : List (List String × String)} {c : Column}
    {o : DOut} (h : dispatch cs E S c = some o) :
    ((∀ vs, c.type ≠ .set vs) ∧ o.sets = S) ∨
    (∃ ws, c.type = .set ws ∧
      o.sets = (registryGetS ws ("set_" ++ c.name) S).2 ∧
      o.atyp = (registryGetS ws ("set_" ++ c.name) S).1) := by
  cases ht : c.type
  case set vs =>
    simp only [dispatch, ht] at h
    injection h with h
    subst h
    exact Or.inr ⟨vs, rfl, rfl, rfl⟩
  all_goals
    refine Or.inl ⟨fun vs hvs => SqlType.noConfusion hvs, ?_⟩
  all_goals simp only [dispatch, ht] at h
  all_goals repeat' (split at h)
  all_goals first
  | (injection h with h; subst h; rfl)
  | (injection h)

theorem dispatch_isSome_of_known {cs : String} {E S : List (List String × String)}
    {c : Column} (h : c.type.isKnown = true) : (dispatch cs E S c).isSome = true := by
  cases ht : c.type
  case unknown d => rw [ht] at h; simp [SqlType.isKnown] at h
  all_goals simp only [dispatch, ht]
  all_goals repeat' split
  all_goals rfl

theorem dispatch_none_of_unknown {cs : String} {E S : List (List String × String)}
    {c : Column} {d : String} (h : c.type = .unknown d) : dispatch cs E S c = none := by
  simp [dispatch, h]

/-! ### First-sighting characterization of generated enum/set names -/

/-- Does column `c` carry an enumeration whose frozenset is set-equal to `K`? -/
def isEnumWith (K : List String) (c : Column) : Bool :=
  match c.type with
  | .enum ws => setEqB (fsModel ws) K
  | _ => false

/-- Does column `c` carry a multi-value set with exactly the value tuple `K`? -/
def isSetWith (K : List String) (c : Column) : Bool :=
  match c.type with
  | .set ws => decide (ws = K)
  | _ => false

/-- The first column in `cols` whose type is an enumeration with value
frozenset set-equal to `K`. -/
def firstEnum (K : List String) (cols : List Column) : Option Column :=
  cols.find? (isEnumWith K)

/-- The first column in `cols` whose type is a multi-value set with exactly
the value tuple `K`. -/
def firstSet (K : List String) (cols : List Column) : Option Column :=
  cols.find? (isSetWith K)

theorem isEnumWith_of_enum {K : List String} {c : Column} {ws : List String}
    (h : c.type = .enum ws) : isEnumWith K c = setEqB (fsModel ws) K := by
  simp [isEnumWith, h]

theorem isEnumWith_of_not_enum {K : List String} {c : Column}
    (h : ∀ ws, c.type ≠ .enum ws) : isEnumWith K c = false := by
  cases ht : c.type
  case enum ws => exact absurd ht (h ws)
  all_goals simp [isEnumWith, ht]

theorem isSetWith_of_set {K : List String} {c : Column} {ws : List String}
    (h : c.type = .set ws) : isSetWith K c = decide (ws = K) := by
  simp [isSetWith, h]

theorem isSetWith_of_not_set {K : List String} {c : Column}
    (h : ∀ ws, c.type ≠ .set ws) : isSetWith K c = false := by
  cases ht : c.type
  case set ws => exact absurd ht (h ws)
  all_goals simp [isSetWith, ht]

/-- During the column fold, an enumeration column's generated type name is
the name already registered for its value set, or — on first sighting —
`enum_` + the name of the first column in the remaining list carrying a
set-equal enumeration. -/
theorem enumChar {tname charset : String} :
    ∀ {cols : List Column} {st st' : ConvState},
      convGo tname charset st cols = .ok st' →
      ∀ (j : Nat) (cj : Column) (vs : List String),
        cols[j]? = some cj → cj.type = .enum vs →
        ∃ dj, st'.columns[st.columns.length + j]? = some dj ∧
          ((∃ n, elookup (fsModel vs) st.enums = some n ∧ dj.type = n) ∨
           (elookup (fsModel vs) st.enums = none ∧
            ∃ cw, firstEnum (fsModel vs) cols = some cw ∧
              dj.type = "enum_" ++ cw.name)) := by
  intro cols
  induction cols with
  | nil => intro st st' h j cj vs hj _; simp at hj
  | cons chd rest ih =>
    intro st st' h j cj vs hj htype
    obtain ⟨st1, hcv, hrest⟩ := convGo_cons_ok h
    obtain ⟨o, cn, hd, hcn, rfl⟩ := convertColumn_ok hcv
    cases j with
    | zero =>
      rw [List.getElem?_cons_zero] at hj
      injection hj with hj
      subst hj
      rcases dispatch_enums_shape hd with ⟨hne, _⟩ | ⟨ws, hws, _, hatyp⟩
      · exact absurd htype (hne vs)
      · rw [htype] at hws
        injection hws with hvw
        subst hvw
        obtain ⟨recs, hrecs⟩ := convGo_columns_mono hrest
        have hcols : st'.columns = st.columns ++ ([recordOf st chd o cn] ++ recs) := by
          rw [hrecs, stepState_columns, List.append_assoc]
        refine ⟨recordOf st chd o cn, ?_, ?_⟩
        · rw [hcols, Nat.add_zero, List.getElem?_append_right (le_refl _)]
          simp
        · rw [recordOf_type, hatyp]
          cases hl : elookup (fsModel vs) st.enums with
          | some n => exact Or.inl ⟨n, rfl, by rw [registryGetE_hit hl]⟩
          | none =>
            refine Or.inr ⟨rfl, chd, ?_, ?_⟩
            · unfold firstEnum
              exact List.find?_cons_of_pos rest
                (by rw [isEnumWith_of_enum htype]; exact setEqB_refl _)
            · rw [registryGetE_miss hl]
    | succ j' =>
      rw [List.getElem?_cons_succ] at hj
      obtain ⟨dj, hdj, hdisj⟩ := ih hrest j' cj vs hj htype
      have hlen : (stepState st chd o cn).columns.length = st.columns.length + 1 := by
        rw [stepState_columns, List.length_append]
        rfl
      rw [hlen, show st.columns.length + 1 + j' = st.columns.length + (j' + 1) by omega]
        at hdj
      refine ⟨dj, hdj, ?_⟩
      rcases dispatch_enums_shape hd with ⟨hne, hE⟩ | ⟨ws, hws, hEe, _⟩
      · rw [stepState_enums, hE] at hdisj
        rcases hdisj with ⟨n, hn, hty⟩ | ⟨hnone, cw, hcw, hty⟩
        · exact Or.inl ⟨n, hn, hty⟩
        · refine Or.inr ⟨hnone, cw, ?_, hty⟩
          unfold firstEnum at hcw ⊢
          rw [List.find?_cons_of_neg _ (by simp [isEnumWith_of_not_enum hne])]
          exact hcw
      · by_cases hk : setEqB (fsModel ws) (fsModel vs) = true
        · cases hl : elookup (fsModel ws) st.enums with
          | some n0 =>
            rw [stepState_enums, hEe, registryGetE_hit hl] at hdisj
            have hlv : elookup (fsModel vs) st.enums = some n0 := by
              rw [← elookup_key_congr hk]; exact hl
            rcases hdisj with ⟨n, hn, hty⟩ | ⟨hnone, _⟩
            · exact Or.inl ⟨n, hn, hty⟩
            · rw [hlv] at hnone; cases hnone
          | none =>
            rw [stepState_enums, hEe, registryGetE_miss hl] at hdisj
            have hlv : elookup (fsModel vs) st.enums = none := by
              rw [← elookup_key_congr hk]; exact hl
            have hlv1 : elookup (fsModel vs)
                (st.enums ++ [(fsModel ws, "enum_" ++ chd.name)]) =
                some ("enum_" ++ chd.name) := by
              rw [elookup_append_one hlv, if_pos hk]
            rcases hdisj with ⟨n, hn, hty⟩ | ⟨hnone, _⟩
            · rw [hlv1] at hn
              injection hn with hn
              refine Or.inr ⟨hlv, chd, ?_, by rw [hty, ← hn]⟩
              unfold firstEnum
              exact List.find?_cons_of_pos rest (by rw [isEnumWith_of_enum hws]; exact hk)
            · rw [hlv1] at hnone; cases hnone
        · have hpred : ¬ isEnumWith (fsModel vs) chd = true := by
            rw [isEnumWith_of_enum hws]
            exact hk
          cases hl : elookup (fsModel ws) st.enums with
          | some n0 =>
            rw [stepState_enums, hEe, registryGetE_hit hl] at hdisj
            rcases hdisj with ⟨n, hn, hty⟩ | ⟨hnone, cw, hcw, hty⟩
            · exact Or.inl ⟨n, hn, hty⟩
            · refine Or.inr ⟨hnone, cw, ?_, hty⟩
              unfold firstEnum at hcw ⊢
              rw [List.find?_cons_of_neg _ hpred]
              exact hcw
          | none =>
            rw [stepState_enums, hEe, registryGetE_miss hl] at hdisj
            have hlv1 : elookup (fsModel vs)
                (st.enums ++ [(fsModel ws, "enum_" ++ chd.name)]) =
                elookup (fsModel vs) st.enums := by
              cases hl2 : elookup (fsModel vs) st.enums with
              | some v => exact elookup_append_some _ hl2
              | none =>
                rw [elookup_append_one hl2, if_neg]
                simpa using hk
            rw [hlv1] at hdisj
            rcases hdisj with ⟨n, hn, hty⟩ | ⟨hnone, cw, hcw, hty⟩
            · exact Or.inl ⟨n, hn, hty⟩
            · refine Or.inr ⟨hnone, cw, ?_, hty⟩
              unfold firstEnum at hcw ⊢
              rw [List.find?_cons_of_neg _ hpred]
              exact hcw

/-- During the column fold, a multi-value-set column's generated type name
is the name already registered for its exact value tuple, or — on first
sighting — `set_` + the name of the first column in the remaining list
carrying exactly that tuple. -/
theorem setChar {tname charset : String} :
    ∀ {cols : List Column} {st st' : ConvState},
      convGo tname charset st cols = .ok st' →
      ∀ (j : Nat) (cj : Column) (vs : List String),
        cols[j]? = some cj → cj.type = .set vs →
        ∃ dj, st'.columns[st.columns.length + j]? = some dj ∧
          ((∃ n, slookup vs st.sets = some n ∧ dj.type = n) ∨
           (slookup vs st.sets = none ∧
            ∃ cw, firstSet vs cols = some cw ∧ dj.type = "set_" ++ cw.name)) := by
  intro cols
  induction cols with
  | nil => intro st st' h j cj vs hj _; simp at hj
  | cons chd rest ih =>
    intro st st' h j cj vs hj htype
    obtain ⟨st1, hcv, hrest⟩ := convGo_cons_ok h
    obtain ⟨o, cn, hd, hcn, rfl⟩ := convertColumn_ok hcv
    cases j with
    | zero =>
      rw [List.getElem?_cons_zero] at hj
      injection hj with hj
      subst hj
      rcases dispatch_sets_shape hd with ⟨hne, _⟩ | ⟨ws, hws, _, hatyp⟩
      · exact absurd htype (hne vs)
      · rw [htype] at hws
        injection hws with hvw
        subst hvw
        obtain ⟨recs, hrecs⟩ := convGo_columns_mono hrest
        have hcols : st'.columns = st.columns ++ ([recordOf st chd o cn] ++ recs) := by
          rw [hrecs, stepState_columns, List.append_assoc]
        refine ⟨recordOf st chd o cn, ?_, ?_⟩
        · rw [hcols, Nat.add_zero, List.getElem?_append_right (le_refl _)]
          simp
        · rw [recordOf_type, hatyp]
          cases hl : slookup vs st.sets with
          | some n => exact Or.inl ⟨n, rfl, by rw [registryGetS_hit hl]⟩
          | none =>
            refine Or.inr ⟨rfl, chd, ?_, ?_⟩
            · unfold firstSet
              exact List.find?_cons_of_pos rest
                (by rw [isSetWith_of_set htype]; simp)
            · rw [registryGetS_miss hl]
    | succ j' =>
      rw [List.getElem?_cons_succ] at hj
      obtain ⟨dj, hdj, hdisj⟩ := ih hrest j' cj vs hj htype
      have hlen : (stepState st chd o cn).columns.length = st.columns.length + 1 := by
        rw [stepState_columns, List.length_append]
        rfl
      rw [hlen, show st.columns.length + 1 + j' = st.columns.length + (j' + 1) by omega]
        at hdj
      refine ⟨dj, hdj, ?_⟩
      rcases dispatch_sets_shape hd with ⟨hne, hS⟩ | ⟨ws, hws, hSe, _⟩
      · rw [stepState_sets, hS] at hdisj
        rcases hdisj with ⟨n, hn, hty⟩ | ⟨hnone, cw, hcw, hty⟩
        · exact Or.inl ⟨n, hn, hty⟩
        · refine Or.inr ⟨hnone, cw, ?_, hty⟩
          unfold firstSet at hcw ⊢
          rw [List.find?_cons_of_neg _ (by simp [isSetWith_of_not_set hne])]
          exact hcw
      · by_cases hk : ws = vs
        · subst hk
          cases hl : slookup ws st.sets with
          | some n0 =>
            have hsnd : (registryGetS ws ("set_" ++ chd.name) st.sets).2 = st.sets := by
              rw [registryGetS_hit hl]
            rw [stepState_sets, hSe, hsnd, hl] at hdisj
            rcases hdisj with ⟨n, hn, hty⟩ | ⟨hnone, _⟩
            · exact Or.inl ⟨n, hn, hty⟩
            · cases hnone
          | none =>
            have hsnd : (registryGetS ws ("set_" ++ chd.name) st.sets).2 =
                st.sets ++ [(ws, "set_" ++ chd.name)] := by
              rw [registryGetS_miss hl]
            rw [stepState_sets, hSe, hsnd] at hdisj
            have hlv1 : slookup ws (st.sets ++ [(ws, "set_" ++ chd.name)]) =
                some ("set_" ++ chd.name) := by
              rw [slookup_append_one hl, if_pos rfl]
            rcases hdisj with ⟨n, hn, hty⟩ | ⟨hnone, _⟩
            · rw [hlv1] at hn
              injection hn with hn
              refine Or.inr ⟨rfl, chd, ?_, by rw [hty, ← hn]⟩
              unfold firstSet
              exact List.find?_cons_of_pos rest (by rw [isSetWith_of_set hws]; simp)
            · rw [hlv1] at hnone; cases hnone
        · have hpred : ¬ isSetWith vs chd = true := by
            rw [isSetWith_of_set hws]
            simp [hk]
          cases hl : slookup ws st.sets with
          | some n0 =>
            rw [stepState_sets, hSe, registryGetS_hit hl] at hdisj
            rcases hdisj with ⟨n, hn, hty⟩ | ⟨hnone, cw, hcw, hty⟩
            · exact Or.inl ⟨n, hn, hty⟩
            · refine Or.inr ⟨hnone, cw, ?_, hty⟩
              unfold firstSet at hcw ⊢
              rw [List.find?_cons_of_neg _ hpred]
              exact hcw
          | none =>
            rw [stepState_sets, hSe, registryGetS_miss hl] at hdisj
            have hlv1 : slookup vs (st.sets ++ [(ws, "set_" ++ chd.name)]) =
                slookup vs st.sets := by
              cases hl2 : slookup vs st.sets with
              | some v => exact slookup_append_some _ hl2
              | none => rw [slookup_append_one hl2, if_neg hk]
            rw [hlv1] at hdisj
            rcases hdisj with ⟨n, hn, hty⟩ | ⟨hnone, cw, hcw, hty⟩
            · exact Or.inl ⟨n, hn, hty⟩
            · refine Or.inr ⟨hnone, cw, ?_, hty⟩
              unfold firstSet at hcw ⊢
              rw [List.find?_cons_of_neg _ hpred]
              exact hcw

/-! ### Inversion lemmas for `convert_table` and `runGo` -/

def initState (t : Table) : ConvState := ⟨[], [], [], [], [], [], t.indexes⟩

theorem convert_table_ok {t : Table} {data : TableDict} {i m p : List String}
    (h : convert_table t = .ok (data, i, m, p)) :
    ∃ st, convGo t.name t.charset (initState t) t.columns = .ok st ∧
      data.columns = st.columns ∧ data.indexes = st.indexes ∧
      data.enums = st.enums.map (fun q => (q.2, "Enum(" ++ renderVals q.1 ++ ")"))
                ++ st.sets.map (fun q => (q.2, "SET(" ++ renderVals q.1 ++ ")")) ∧
      i = (if st.indexes.isEmpty then st.imports else addS "Index" st.imports) ∧
      m = st.mysql ∧ p = st.pyimports := by
  unfold convert_table at h
  cases hc : convGo t.name t.charset ⟨[], [], [], [], [], [], t.indexes⟩ t.columns with
  | error e => rw [hc] at h; simp at h
  | ok st =>
    rw [hc] at h
    cases hp : pascal_case t.name with
    | none => rw [hp] at h; simp at h
    | some model =>
      rw [hp] at h
      injection h with h
      simp only [Prod.mk.injEq] at h
      obtain ⟨h1, h2, h3, h4⟩ := h
      exact ⟨st, hc, by rw [← h1], by rw [← h1], by rw [← h1], h2.symm, h3.symm, h4.symm⟩

theorem convert_table_eq_ok {t : Table} {st : ConvState} {model : String}
    (hc : convGo t.name t.charset (initState t) t.columns = .ok st)
    (hp : pascal_case t.name = some model) :
    convert_table t = .ok
      ({ model := model, name := t.name, columns := st.columns,
         enums := st.enums.map (fun q => (q.2, "Enum(" ++ renderVals q.1 ++ ")"))
               ++ st.sets.map (fun q => (q.2, "SET(" ++ renderVals q.1 ++ ")")),
         charset := t.charset, indexes := st.indexes, abstract := false,
         with_tablename := true },
       (if st.indexes.isEmpty then st.imports else addS "Index" st.imports),
       st.mysql, st.pyimports) := by
  unfold convert_table
  rw [show convGo t.name t.charset ⟨[], [], [], [], [], [], t.indexes⟩ t.columns = .ok st
    from hc, hp]

theorem convert_table_error {t : Table} {e : String}
    (hc : convGo t.name t.charset (initState t) t.columns = .error e) :
    convert_table t = .error e := by
  unfold convert_table
  rw [show convGo t.name t.charset ⟨[], [], [], [], [], [], t.indexes⟩ t.columns = .error e
    from hc]

theorem runGo_cons_ok {wt ab : Bool} {seen : List (String × String)}
    {i m p : List String} {t : Table} {rest : List Table} {r : RunOut}
    (h : runGo wt ab seen i m p (t :: rest) = .ok r) :
    ∃ data i' m' p' out, convert_table t = .ok (data, i', m', p') ∧
      runGo wt ab (seenFilter seen data.enums).2 (unionS i i') (unionS m m')
        (unionS p p') rest = .ok out ∧
      r = ⟨{ data with
             enums := (seenFilter seen data.enums).1,
             abstract := ab,
             with_tablename := wt } :: out.tables,
           out.imports, out.mysql, out.pyimports⟩ := by
  unfold runGo at h
  split at h
  · simp at h
  · rename_i data i' m' p' heq
    split at h
    · simp at h
    · rename_i out heq2
      injection h with h
      exact ⟨data, i', m', p', out, heq, heq2, h.symm⟩

/-! ### Reconciliation lemmas (C4) -/

theorem reconcile_no_match {cname : String} :
    ∀ {idxs : List Index}, (∀ i ∈ idxs, ¬ (i.columns.length = 1 ∧ cname ∈ i.columns)) →
      reconcile cname idxs = (none, idxs)
  | [], _ => rfl
  | i :: rest, h => by
    rw [show reconcile cname (i :: rest) =
        ((reconcile cname rest).1, i :: (reconcile cname rest).2) by
      simp [reconcile, h i (List.mem_cons_self _ _)]]
    rw [reconcile_no_match (fun j hj => h j (List.mem_cons_of_mem _ hj))]

theorem reconcile_first_match {cname : String} {i : Index}
    (hi : i.columns.length = 1 ∧ cname ∈ i.columns) :
    ∀ {pre : List Index} (post : List Index),
      (∀ j ∈ pre, ¬ (j.columns.length = 1 ∧ cname ∈ j.columns)) →
      reconcile cname (pre ++ i :: post) = (some i.unique, pre ++ post)
  | [], post, _ => by simp [reconcile, hi]
  | j :: pre', post, h => by
    rw [List.cons_append,
      show reconcile cname (j :: (pre' ++ i :: post)) =
        ((reconcile cname (pre' ++ i :: post)).1,
          j :: (reconcile cname (pre' ++ i :: post)).2) by
        simp [reconcile, h j (List.mem_cons_self _ _)],
      reconcile_first_match hi post (fun k hk => h k (List.mem_cons_of_mem _ hk))]
    rfl

theorem reconcile_keep {cname : String} {j : Index}
    (hj : ¬ (j.columns.length = 1 ∧ cname ∈ j.columns)) :
    ∀ {idxs : List Index}, j ∈ idxs → j ∈ (reconcile cname idxs).2
  | [], h => by cases h
  | i :: rest, h => by
    by_cases hi : i.columns.length = 1 ∧ cname ∈ i.columns
    · rw [show reconcile cname (i :: rest) = (some i.unique, rest) by
        simp [reconcile, hi]]
      rcases List.mem_cons.mp h with rfl | h'
      · exact absurd hi hj
      · exact h'
    · rw [show reconcile cname (i :: rest) =
          ((reconcile cname rest).1, i :: (reconcile cname rest).2) by
        simp [reconcile, hi]]
      rcases List.mem_cons.mp h with rfl | h'
      · exact List.mem_cons_self _ _
      · exact List.mem_cons_of_mem _ (reconcile_keep hj h')

theorem convGo_keeps_multi {tname cs : String} {j : Index}
    (hj : 2 ≤ j.columns.length) :
    ∀ {cols : List Column} {st st' : ConvState}, convGo tname cs st cols = .ok st' →
      j ∈ st.indexes → j ∈ st'.indexes
  | [], st, st', h, hmem => by
    simp only [convGo] at h
    injection h with h
    rw [← h]
    exact hmem
  | c :: rest, st, st', h, hmem => by
    obtain ⟨st1, hcv, hrest⟩ := convGo_cons_ok h
    obtain ⟨o, cn, _, _, rfl⟩ := convertColumn_ok hcv
    refine convGo_keeps_multi hj hrest ?_
    rw [stepState_indexes]
    exact reconcile_keep (fun hcon => by omega) hmem

theorem ne_nil_isEmpty_false {α : Type} {l : List α} (h : l ≠ []) : l.isEmpty = false := by
  cases l with
  | nil => exact absurd rfl h
  | cons a rest => rfl

/-- C4: index reconciliation.  (a) For the current column, the first index
in the collection covering exactly one column equal to it is consumed:
its uniqueness flag is reported and it is removed, indexes before it being
left in place; (b) an index covering two or more columns is never removed
by a reconciliation pass; (c) a successful column step stores the
reconciled collection, and the produced column record has `index = true`
exactly when a single-column index matched (otherwise the column's own
flag), with `unique` copied from the matched index; (d) over a whole
table, every index covering two or more columns survives onto the
`TableDict`, and if any index survives, `Index` is among the required
core imports. -/
theorem C4_index_reconciliation :
    (∀ (cname : String) (pre : List Index) (i : Index) (post : List Index),
      (∀ j ∈ pre, ¬ (j.columns.length = 1 ∧ cname ∈ j.columns)) →
      i.columns.length = 1 → cname ∈ i.columns →
      reconcile cname (pre ++ i :: post) = (some i.unique, pre ++ post)) ∧
    (∀ (cname : String) (idxs : List Index) (j : Index),
      j ∈ idxs → 2 ≤ j.columns.length → j ∈ (reconcile cname idxs).2) ∧
    (∀ (tname cs : String) (st : ConvState) (c : Column) (st' : ConvState),
      convertColumn tname cs st c = .ok st' →
      st'.indexes = (reconcile c.name st.indexes).2 ∧
      ∃ d, st'.columns = st.columns ++ [d] ∧
        d.index = (if (reconcile c.name st.indexes).1.isSome then true else c.index) ∧
        d.unique = ((reconcile c.name st.indexes).1).getD c.unique) ∧
    (∀ (t : Table) (data : TableDict) (i m p : List String),
      convert_table t = .ok (data, i, m, p) →
      (∀ j ∈ t.indexes, 2 ≤ j.columns.length → j ∈ data.indexes) ∧
      (data.indexes ≠ [] → "Index" ∈ i)) := by
  refine ⟨?_, ?_, ?_, ?_⟩
  · intro cname pre i post hpre h1 h2
    exact reconcile_first_match ⟨h1, h2⟩ post hpre
  · intro cname idxs j hmem hlen
    exact reconcile_keep (fun hcon => by omega) hmem
  · intro tname cs st c st' h
    obtain ⟨o, cn, _, _, rfl⟩ := convertColumn_ok h
    exact ⟨stepState_indexes st c o cn,
      recordOf st c o cn, stepState_columns st c o cn,
      recordOf_index st c o cn, recordOf_unique st c o cn⟩
  · intro t data i m p h
    obtain ⟨st, hc, _, hidx, _, hi, _, _⟩ := convert_table_ok h
    constructor
    · intro j hj hlen
      rw [hidx]
      exact convGo_keeps_multi hlen hc hj
    · intro hne
      rw [hidx] at hne
      rw [hi, if_neg (by rw [ne_nil_isEmpty_false hne]; exact fun hcon => by cases hcon)]
      exact self_mem_addS _ _

/-- Witness for C4 on a table with a single-column unique index on `x` and
a two-column index: the single-column index is consumed onto the column
(`index=true, unique=true`), the two-column index survives onto the
`TableDict`, and `Index` is imported. -/
def ix1 : Index := ⟨"ix1", ["x"], true⟩

def ix2 : Index := ⟨"ix2", ["x", "y"], false⟩

def t4 : Table :=
  ⟨"t4", [⟨"x", .integer, false, false, false, false⟩,
          ⟨"y", .integer, true, false, false, false⟩], [ix1, ix2], "utf8", []⟩

def t4Dict : TableDict :=
  ⟨"T4", "t4",
   [⟨"x", "Integer", "int", "INTEGER", false, false, none, true, true, "x", none⟩,
    ⟨"y", "Integer", "int | None", "INTEGER", true, false, none, false, false, "y", none⟩],
   [], "utf8", [ix2], false, true⟩

theorem C4_index_reconciliation_witness :
    reconcile "x" [ix1, ix2] = (some true, [ix2]) ∧
    ix2 ∈ (reconcile "x" [ix1, ix2]).2 ∧
    convert_table t4 = .ok (t4Dict, ["Integer", "Index"], [], []) ∧
    ix2 ∈ t4Dict.indexes ∧ "Index" ∈ (["Integer", "Index"] : List String) := by
  refine ⟨?_, ?_, by decide, ?_, ?_⟩
  · have h := C4_index_reconciliation.1 "x" [] ix1 [ix2] (by simp) (by decide) (by decide)
    simpa [ix1] using h
  · exact C4_index_reconciliation.2.1 "x" [ix1, ix2] ix2 (by decide) (by decide)
  · have h := (C4_index_reconciliation.2.2.2 t4 t4Dict ["Integer", "Index"] [] []
      (by decide)).1 ix2 (by decide) (by decide)
    exact h
  · exact ((C4_index_reconciliation.2.2.2 t4 t4Dict ["Integer", "Index"] [] []
      (by decide)).2 (by decide))

/-! ### C7: nullable wrapping of the semantic type -/

theorem dispatch_nullable (cs : String) (E S : List (List String × String))
    (c : Column) (b : Bool) :
    dispatch cs E S { c with nullable := b } = dispatch cs E S c := by
  cases c
  rfl

/-- C7: for every successfully converted column, the semantic value type is
the base type chosen by the dispatch, wrapped as optional exactly when the
column is nullable; comparing the conversion with the conversion of the
same column marked non-nullable, the base semantic type, target type
expression, server default, and native category are unchanged. -/
theorem C7_nullable_optional_wrapping :
    ∀ (tname cs : String) (st : ConvState) (c : Column) (st1 st2 : ConvState),
      convertColumn tname cs st c = .ok st1 →
      convertColumn tname cs st { c with nullable := false } = .ok st2 →
      ∃ d1 d2, st1.columns = st.columns ++ [d1] ∧ st2.columns = st.columns ++ [d2] ∧
        d1.pytype = (if c.nullable then d2.pytype ++ " | None" else d2.pytype) ∧
        d1.type = d2.type ∧ d1.server_default = d2.server_default ∧
        d1.otype = d2.otype := by
  intro tname cs st c st1 st2 h1 h2
  obtain ⟨o1, cn1, hd1, hcn1, rfl⟩ := convertColumn_ok h1
  obtain ⟨o2, cn2, hd2, hcn2, rfl⟩ := convertColumn_ok h2
  rw [dispatch_nullable, hd1] at hd2
  injection hd2 with hd2
  subst hd2
  rw [show ({ c with nullable := false } : Column).name = c.name from rfl, hcn1] at hcn2
  injection hcn2 with hcn2
  subst hcn2
  refine ⟨recordOf st c o1 cn1, recordOf st { c with nullable := false } o1 cn1,
    stepState_columns st c o1 cn1,
    stepState_columns st { c with nullable := false } o1 cn1, ?_, ?_, ?_, ?_⟩
  · rw [recordOf_pytype, recordOf_pytype,
      show ({ c with nullable := false } : Column).nullable = false from rfl]
    simp
  · rw [recordOf_type, recordOf_type]
  · rw [recordOf_sd, recordOf_sd]
  · rw [recordOf_otype, recordOf_otype]

/-- The empty conversion state. -/
def st0 : ConvState := ⟨[], [], [], [], [], [], []⟩

def cNullable : Column := ⟨"x", .integer, true, false, false, false⟩

def c7s1 : ConvState :=
  ⟨[], ["Integer"], [],
   [⟨"x", "Integer", "int | None", "INTEGER", true, false, none, false, false, "x", none⟩],
   [], [], []⟩

def c7s2 : ConvState :=
  ⟨[], ["Integer"], [],
   [⟨"x", "Integer", "int", "INTEGER", false, false, none, false, false, "x", none⟩],
   [], [], []⟩

theorem C7_nullable_optional_wrapping_witness :
    convertColumn "t" "utf8" st0 cNullable = .ok c7s1 ∧
    convertColumn "t" "utf8" st0 { cNullable with nullable := false } = .ok c7s2 ∧
    ∃ d1 d2, c7s1.columns = st0.columns ++ [d1] ∧ c7s2.columns = st0.columns ++ [d2] ∧
      d1.pytype = (if cNullable.nullable then d2.pytype ++ " | None" else d2.pytype) ∧
      d1.type = d2.type ∧ d1.server_default = d2.server_default ∧
      d1.otype = d2.otype :=
  ⟨by decide, by decide,
   C7_nullable_optional_wrapping "t" "utf8" st0 cNullable c7s1 c7s2 (by decide) (by decide)⟩

/-! ### C8: double-precision floats -/

/-- Amended C8: a `DOUBLE` column produces target expression `DOUBLE` and
semantic type `float` (so the generic-`Float` category does not capture
it), but the source records the symbol in the **core import set**
(`imports.add(atyp)` on line 144), not in the dialect-extension set, which
is left untouched. -/
theorem C8_double_core_import_amended :
    ∀ (tname cs : String) (st : ConvState) (c : Column) (st' : ConvState),
      c.type = .double → convertColumn tname cs st c = .ok st' →
      ∃ d, st'.columns = st.columns ++ [d] ∧ d.type = "DOUBLE" ∧
        d.pytype = (if c.nullable then "float | None" else "float") ∧
        "DOUBLE" ∈ st'.imports ∧ st'.mysql = st.mysql ∧ d.type ≠ "Float" := by
  intro tname cs st c st' ht h
  obtain ⟨o, cn, hd, hcn, rfl⟩ := convertColumn_ok h
  have ho : o = ⟨"DOUBLE", "float", none, ["DOUBLE"], [], [], st.enums, st.sets⟩ := by
    simp only [dispatch, ht] at hd
    injection hd with hd
    exact hd.symm
  refine ⟨recordOf st c o cn, stepState_columns st c o cn, ?_, ?_, ?_, ?_, ?_⟩
  · rw [recordOf_type, ho]
  · rw [recordOf_pytype, ho]
    cases hn : c.nullable <;> rfl
  · show "DOUBLE" ∈ o.imps.foldl (fun a x => addS x a) st.imports
    rw [ho]
    exact self_mem_addS _ _
  · show o.mys.foldl (fun a x => addS x a) st.mysql = st.mysql
    rw [ho]
    rfl
  · rw [recordOf_type, ho]
    show ("DOUBLE" : String) ≠ "Float"
    decide

def cDouble : Column := ⟨"x", .double, false, false, false, false⟩

def c8s : ConvState :=
  ⟨[], ["DOUBLE"], [],
   [⟨"x", "DOUBLE", "float", "DOUBLE", false, false, none, false, false, "x", none⟩],
   [], [], []⟩

theorem C8_double_core_import_witness :
    convertColumn "td" "utf8" st0 cDouble = .ok c8s ∧
    ∃ d, c8s.columns = st0.columns ++ [d] ∧ d.type = "DOUBLE" ∧
      d.pytype = (if cDouble.nullable then "float | None" else "float") ∧
      "DOUBLE" ∈ c8s.imports ∧ c8s.mysql = st0.mysql ∧ d.type ≠ "Float" :=
  ⟨by decide,
   C8_double_core_import_amended "td" "utf8" st0 cDouble c8s rfl (by decide)⟩

/-- A one-DOUBLE-column table. -/
def tDouble : Table := ⟨"td", [cDouble], [], "utf8", []⟩

def tdDict : TableDict :=
  ⟨"Td", "td",
   [⟨"x", "DOUBLE", "float", "DOUBLE", false, false, none, false, false, "x", none⟩],
   [], "utf8", [], false, true⟩

/-- Counterexample to C8 as stated: translating a table with one
double-precision column adds `DOUBLE` to the **core import set** (second
component `["DOUBLE"]`) and adds nothing to the dialect-extension set
(third component `[]`) — the opposite of "dialect extension, not core
import". -/
theorem C8_counterexample_core_not_dialect :
    convert_table tDouble = .ok (tdDict, ["DOUBLE"], [], []) ∧
    "DOUBLE" ∈ (["DOUBLE"] : List String) ∧ ¬ "DOUBLE" ∈ ([] : List String) := by
  refine ⟨by decide, by decide, by decide⟩

/-! ### C3: the unknown-type fatal error -/

/-- Asserts that `sub` occurs as a contiguous substring of `s`. -/
def strContains (s sub : String) : Prop := ∃ a b, s = a ++ (sub ++ b)

theorem isKnown_false_unknown {ty : SqlType} (h : ty.isKnown = false) :
    ∃ d, ty = .unknown d := by
  cases ty
  case unknown d => exact ⟨d, rfl⟩
  all_goals simp [SqlType.isKnown] at h

theorem convGo_total {tname cs : String} :
    ∀ {cols : List Column} (st : ConvState),
      (∀ c ∈ cols, c.type.isKnown = true) → (∀ c ∈ cols, c.name.data ≠ []) →
      ∃ st', convGo tname cs st cols = .ok st'
  | [], st, _, _ => ⟨st, rfl⟩
  | c :: rest, st, hk, hn => by
    obtain ⟨o, ho⟩ := Option.isSome_iff_exists.mp
      (@dispatch_isSome_of_known cs st.enums st.sets c (hk c (List.mem_cons_self _ _)))
    obtain ⟨cn, hcn⟩ := Option.isSome_iff_exists.mp
      (column_name_isSome (hn c (List.mem_cons_self _ _)))
    obtain ⟨st', hst'⟩ := convGo_total (stepState st c o cn)
      (fun c' h' => hk c' (List.mem_cons_of_mem _ h'))
      (fun c' h' => hn c' (List.mem_cons_of_mem _ h'))
    refine ⟨st', ?_⟩
    rw [show convGo tname cs st (c :: rest) = convGo tname cs (stepState st c o cn) rest by
      simp [convGo, convertColumn_eq_ok ho hcn]]
    exact hst'

theorem convGo_error_first {tname cs : String} {c : Column} (hk : c.type.isKnown = false) :
    ∀ {pre : List Column} (post : List Column) (st : ConvState),
      (∀ c' ∈ pre, c'.type.isKnown = true) → (∀ c' ∈ pre, c'.name.data ≠ []) →
      convGo tname cs st (pre ++ c :: post) = .error (unknownMsg tname c)
  | [], post, st, _, _ => by
    obtain ⟨d, hd⟩ := isKnown_false_unknown hk
    have hcv : convertColumn tname cs st c = .error (unknownMsg tname c) := by
      unfold convertColumn
      rw [@dispatch_none_of_unknown cs st.enums st.sets c d hd]
    show convGo tname cs st (c :: post) = _
    simp [convGo, hcv]
  | c' :: pre', post, st, hkp, hnp => by
    obtain ⟨o, ho⟩ := Option.isSome_iff_exists.mp
      (@dispatch_isSome_of_known cs st.enums st.sets c' (hkp c' (List.mem_cons_self _ _)))
    obtain ⟨cn, hcn⟩ := Option.isSome_iff_exists.mp
      (column_name_isSome (hnp c' (List.mem_cons_self _ _)))
    rw [List.cons_append,
      show convGo tname cs st (c' :: (pre' ++ c :: post)) =
        convGo tname cs (stepState st c' o cn) (pre' ++ c :: post) by
        simp [convGo, convertColumn_eq_ok ho hcn]]
    exact convGo_error_first hk post (stepState st c' o cn)
      (fun k hk' => hkp k (List.mem_cons_of_mem _ hk'))
      (fun k hk' => hnp k (List.mem_cons_of_mem _ hk'))

/-- C3: table translation is total on the closed dispatch table and fatal
off it.  If every column's native type is one of the closed categories
(and the physical names are non-degenerate, so the normalizers do not
fail), translation returns a `TableRecord`; if some column's type is
outside the closed table (the earlier columns being well-typed, so it is
the one the loop reaches), translation aborts with exactly the
`unknown field` error, whose message contains both the table name and the
column name, and no `TableRecord` is produced. -/
theorem C3_unknown_type_fatal :
    (∀ t : Table, (∀ seg ∈ splitUnder t.name.data, seg ≠ []) →
      (∀ c ∈ t.columns, c.name.data ≠ []) →
      (∀ c ∈ t.columns, c.type.isKnown = true) →
      ∃ out, convert_table t = .ok out) ∧
    (∀ (t : Table) (pre : List Column) (c : Column) (post : List Column),
      t.columns = pre ++ c :: post →
      (∀ c' ∈ pre, c'.type.isKnown = true) →
      (∀ c' ∈ pre, c'.name.data ≠ []) →
      c.type.isKnown = false →
      convert_table t = .error (unknownMsg t.name c) ∧
      strContains (unknownMsg t.name c) t.name ∧
      strContains (unknownMsg t.name c) c.name) := by
  constructor
  · intro t hseg hn hk
    obtain ⟨st, hst⟩ := convGo_total (initState t) hk hn
    obtain ⟨model, hmodel⟩ := Option.isSome_iff_exists.mp (pascal_case_isSome hseg)
    exact ⟨_, convert_table_eq_ok hst hmodel⟩
  · intro t pre c post hcols hkp hnp hk
    refine ⟨?_, ?_, ?_⟩
    · apply convert_table_error
      rw [hcols]
      exact convGo_error_first hk post (initState t) hkp hnp
    · exact ⟨"unknown field \"", "." ++ c.name ++ "\" " ++ c.type.strRepr, by
        simp [unknownMsg, String.append_assoc]⟩
    · exact ⟨"unknown field \"" ++ t.name ++ ".", "\" " ++ c.type.strRepr, by
        simp [unknownMsg, String.append_assoc]⟩

def cUnknown : Column := ⟨"y", .unknown "GEOMETRY", false, false, false, false⟩

def tBad : Table :=
  ⟨"bad", [⟨"x", .integer, false, false, false, false⟩, cUnknown], [], "utf8", []⟩

theorem C3_unknown_type_fatal_witness :
    (∃ out, convert_table t4 = .ok out) ∧
    convert_table tBad = .error (unknownMsg "bad" cUnknown) ∧
    strContains (unknownMsg "bad" cUnknown) "bad" ∧
    strContains (unknownMsg "bad" cUnknown) "y" :=
  ⟨C3_unknown_type_fatal.1 t4 (by decide) (by decide) (by decide),
   (C3_unknown_type_fatal.2 tBad [⟨"x", .integer, false, false, false, false⟩]
      cUnknown [] rfl (by decide) (by decide) rfl).1,
   (C3_unknown_type_fatal.2 tBad [⟨"x", .integer, false, false, false, false⟩]
      cUnknown [] rfl (by decide) (by decide) rfl).2.1,
   (C3_unknown_type_fatal.2 tBad [⟨"x", .integer, false, false, false, false⟩]
      cUnknown [] rfl (by decide) (by decide) rfl).2.2⟩

/-! ### Helper lemmas: key congruence, owner extraction, name injectivity -/

theorem isEnumWith_congr {K1 K2 : List String} (h : setEqB K1 K2 = true) (c : Column) :
    isEnumWith K1 c = isEnumWith K2 c := by
  cases ht : c.type
  case enum ws =>
    rw [isEnumWith_of_enum ht, isEnumWith_of_enum ht, setEqB_trans_key h]
  all_goals
    rw [isEnumWith_of_not_enum
        (fun ws hws => by rw [ht] at hws; exact SqlType.noConfusion hws),
      isEnumWith_of_not_enum
        (fun ws hws => by rw [ht] at hws; exact SqlType.noConfusion hws)]

theorem isSetWith_eq_set {K : List String} {c : Column} (h : isSetWith K c = true) :
    c.type = .set K := by
  cases ht : c.type
  case set ws =>
    rw [isSetWith_of_set ht] at h
    simp at h
    rw [h]
  all_goals
    rw [isSetWith_of_not_set
      (fun ws hws => by rw [ht] at hws; exact SqlType.noConfusion hws)] at h
  all_goals cases h

theorem string_append_left_cancel {p a b : String} (h : p ++ a = p ++ b) : a = b := by
  have hd : p.data ++ a.data = p.data ++ b.data := congrArg String.data h
  have hab : a.data = b.data := List.append_cancel_left hd
  exact congrArg String.mk hab

/-- The generated enum name of a column, characterized directly on
`convert_table`'s output: it is `enum_` + the first-sighting owner's name. -/
theorem convert_enum_first {t : Table} {data : TableDict} {i m p : List String}
    {j : Nat} {cj : Column} {vs : List String}
    (h : convert_table t = .ok (data, i, m, p))
    (hj : t.columns[j]? = some cj) (ht : cj.type = .enum vs) :
    ∃ dj cw, data.columns[j]? = some dj ∧ firstEnum (fsModel vs) t.columns = some cw ∧
      dj.type = "enum_" ++ cw.name := by
  obtain ⟨st, hc, hcols, _⟩ := convert_table_ok h
  obtain ⟨dj, hdj, hdisj⟩ := enumChar hc j cj vs hj ht
  rw [show (initState t).columns.length = 0 from rfl, Nat.zero_add] at hdj
  rcases hdisj with ⟨n, hn, _⟩ | ⟨_, cw, hcw, hty⟩
  · rw [show elookup (fsModel vs) (initState t).enums = none from rfl] at hn
    cases hn
  · exact ⟨dj, cw, by rw [hcols]; exact hdj, hcw, hty⟩

/-- The generated set name of a column, characterized directly on
`convert_table`'s output: it is `set_` + the first-sighting owner's name. -/
theorem convert_set_first {t : Table} {data : TableDict} {i m p : List String}
    {j : Nat} {cj : Column} {vs : List String}
    (h : convert_table t = .ok (data, i, m, p))
    (hj : t.columns[j]? = some cj) (ht : cj.type = .set vs) :
    ∃ dj cw, data.columns[j]? = some dj ∧ firstSet vs t.columns = some cw ∧
      dj.type = "set_" ++ cw.name := by
  obtain ⟨st, hc, hcols, _⟩ := convert_table_ok h
  obtain ⟨dj, hdj, hdisj⟩ := setChar hc j cj vs hj ht
  rw [show (initState t).columns.length = 0 from rfl, Nat.zero_add] at hdj
  rcases hdisj with ⟨n, hn, _⟩ | ⟨_, cw, hcw, hty⟩
  · rw [show slookup vs (initState t).sets = none from rfl] at hn
    cases hn
  · exact ⟨dj, cw, by rw [hcols]; exact hdj, hcw, hty⟩

/-- Two enumeration columns of one table with set-equal value sets get the
same generated type name. -/
theorem same_table_enum_name {t : Table} {data : TableDict} {i m p : List String}
    (h : convert_table t = .ok (data, i, m, p))
    {jx jy : Nat} {cx cy : Column} {vsx vsy : List String} {dx dy : ColDict}
    (hjx : t.columns[jx]? = some cx) (hjy : t.columns[jy]? = some cy)
    (htx : cx.type = .enum vsx) (hty : cy.type = .enum vsy)
    (hset : ∀ x, x ∈ vsx ↔ x ∈ vsy)
    (hdx : data.columns[jx]? = some dx) (hdy : data.columns[jy]? = some dy) :
    dx.type = dy.type := by
  obtain ⟨dx', cwx, hdx', hcwx, htyx⟩ := convert_enum_first h hjx htx
  obtain ⟨dy', cwy, hdy', hcwy, htyy⟩ := convert_enum_first h hjy hty
  rw [hdx] at hdx'
  injection hdx' with hdx'
  rw [hdy] at hdy'
  injection hdy' with hdy'
  subst hdx'
  subst hdy'
  have hkey : setEqB (fsModel vsx) (fsModel vsy) = true :=
    setEqB_iff.mpr (fun x => by rw [mem_fsModel, mem_fsModel]; exact hset x)
  have hfe : firstEnum (fsModel vsx) t.columns = firstEnum (fsModel vsy) t.columns := by
    unfold firstEnum
    rw [show isEnumWith (fsModel vsx) = isEnumWith (fsModel vsy) from
      funext (isEnumWith_congr hkey)]
  rw [hfe, hcwy] at hcwx
  injection hcwx with hcwx
  rw [htyx, htyy, hcwx]

/-- Two set columns of one table with different declared value tuples get
different generated type names (column names being distinct in a table). -/
theorem same_table_set_distinct {t : Table} {data : TableDict} {i m p : List String}
    (h : convert_table t = .ok (data, i, m, p))
    (hnd : (t.columns.map Column.name).Nodup)
    {jx jy : Nat} {cx cy : Column} {vsx vsy : List String} {dx dy : ColDict}
    (hjx : t.columns[jx]? = some cx) (hjy : t.columns[jy]? = some cy)
    (htx : cx.type = .set vsx) (hty : cy.type = .set vsy) (hne : vsx ≠ vsy)
    (hdx : data.columns[jx]? = some dx) (hdy : data.columns[jy]? = some dy) :
    dx.type ≠ dy.type := by
  obtain ⟨dx', cwx, hdx', hcwx, htyx⟩ := convert_set_first h hjx htx
  obtain ⟨dy', cwy, hdy', hcwy, htyy⟩ := convert_set_first h hjy hty
  rw [hdx] at hdx'
  injection hdx' with hdx'
  rw [hdy] at hdy'
  injection hdy' with hdy'
  subst hdx'
  subst hdy'
  have hmx : cwx ∈ t.columns := List.mem_of_find?_eq_some hcwx
  have hmy : cwy ∈ t.columns := List.mem_of_find?_eq_some hcwy
  have hwx : cwx.type = .set vsx := isSetWith_eq_set (List.find?_some hcwx)
  have hwy : cwy.type = .set vsy := isSetWith_eq_set (List.find?_some hcwy)
  intro hcon
  rw [htyx, htyy] at hcon
  have hname : cwx.name = cwy.name := string_append_left_cancel hcon
  have heq : cwx = cwy := List.inj_on_of_nodup_map hnd hmx hmy hname
  rw [heq, hwy] at hwx
  injection hwx with hwx
  exact hne hwx.symm

/-! ### Seen-filter lemmas (run-level suppression of duplicate definitions) -/

theorem sf_emitted {q : String × String} :
    ∀ {ks seen : List (String × String)}, q ∈ (seenFilter seen ks).1 →
      q ∈ ks ∧ ¬ q ∈ seen
  | [], seen, h => by simp [seenFilter] at h
  | k :: rest, seen, h => by
    by_cases hk : k ∈ seen
    · rw [show seenFilter seen (k :: rest) = seenFilter seen rest by
        simp [seenFilter, hk]] at h
      obtain ⟨h1, h2⟩ := sf_emitted h
      exact ⟨List.mem_cons_of_mem _ h1, h2⟩
    · rw [show seenFilter seen (k :: rest) =
          (k :: (seenFilter (k :: seen) rest).1, (seenFilter (k :: seen) rest).2) by
        simp [seenFilter, hk]] at h
      rcases List.mem_cons.mp h with rfl | h'
      · exact ⟨List.mem_cons_self _ _, hk⟩
      · obtain ⟨h1, h2⟩ := sf_emitted h'
        exact ⟨List.mem_cons_of_mem _ h1, fun hs => h2 (List.mem_cons_of_mem _ hs)⟩

theorem sf_nodup : ∀ {ks seen : List (String × String)}, ((seenFilter seen ks).1).Nodup
  | [], seen => by simp [seenFilter]
  | k :: rest, seen => by
    by_cases hk : k ∈ seen
    · rw [show seenFilter seen (k :: rest) = seenFilter seen rest by
        simp [seenFilter, hk]]
      exact sf_nodup
    · rw [show seenFilter seen (k :: rest) =
          (k :: (seenFilter (k :: seen) rest).1, (seenFilter (k :: seen) rest).2) by
        simp [seenFilter, hk]]
      refine List.nodup_cons.mpr ⟨?_, sf_nodup⟩
      intro hmem
      exact (sf_emitted hmem).2 (List.mem_cons_self _ _)

theorem sf_seen_incl {q : String × String} :
    ∀ {ks seen : List (String × String)}, q ∈ seen → q ∈ (seenFilter seen ks).2
  | [], _, h => h
  | k :: rest, seen, h => by
    by_cases hk : k ∈ seen
    · rw [show seenFilter seen (k :: rest) = seenFilter seen rest by
        simp [seenFilter, hk]]
      exact sf_seen_incl h
    · rw [show seenFilter seen (k :: rest) =
          (k :: (seenFilter (k :: seen) rest).1, (seenFilter (k :: seen) rest).2) by
        simp [seenFilter, hk]]
      exact sf_seen_incl (List.mem_cons_of_mem _ h)

theorem sf_emit_in_seen {q : String × String} :
    ∀ {ks seen : List (String × String)}, q ∈ (seenFilter seen ks).1 →
      q ∈ (seenFilter seen ks).2
  | [], seen, h => by simp [seenFilter] at h
  | k :: rest, seen, h => by
    by_cases hk : k ∈ seen
    · rw [show seenFilter seen (k :: rest) = seenFilter seen rest by
        simp [seenFilter, hk]] at h ⊢
      exact sf_emit_in_seen h
    · rw [show seenFilter seen (k :: rest) =
          (k :: (seenFilter (k :: seen) rest).1, (seenFilter (k :: seen) rest).2) by
        simp [seenFilter, hk]] at h ⊢
      rcases List.mem_cons.mp h with rfl | h'
      · exact sf_seen_incl (List.mem_cons_self _ _)
      · exact sf_emit_in_seen h'

theorem runGo_nodup {wt ab : Bool} :
    ∀ {ts : List Table} {seen : List (String × String)} {i m p : List String} {r : RunOut},
      runGo wt ab seen i m p ts = .ok r →
      ((r.tables.map TableDict.enums).flatten).Nodup ∧
      ∀ q ∈ (r.tables.map TableDict.enums).flatten, ¬ q ∈ seen
  | [], seen, i, m, p, r, h => by
    simp only [runGo] at h
    injection h with h
    rw [← h]
    simp
  | t :: rest, seen, i, m, p, r, h => by
    obtain ⟨data, i', m', p', out, hc, hr, rfl⟩ := runGo_cons_ok h
    obtain ⟨hnodup, hnotin⟩ := runGo_nodup hr
    have hshape :
        ((RunOut.mk ({ data with
            enums := (seenFilter seen data.enums).1,
            abstract := ab,
            with_tablename := wt } :: out.tables)
          out.imports out.mysql out.pyimports).tables.map TableDict.enums).flatten =
        (seenFilter seen data.enums).1 ++ (out.tables.map TableDict.enums).flatten := by
      simp
    rw [hshape]
    constructor
    · refine List.Nodup.append sf_nodup hnodup ?_
      intro q hq1 hq2
      exact hnotin q hq2 (sf_emit_in_seen hq1)
    · intro q hq
      rcases List.mem_append.mp hq with h1 | h2
      · exact (sf_emitted h1).2
      · exact fun hs => hnotin q h2 (sf_seen_incl hs)

/-! ### Concrete tables for the enum/set claims -/

def statusCol : Column := ⟨"status", .enum ["a", "b"], false, false, false, false⟩

def status2Col : Column := ⟨"status2", .enum ["b", "a"], false, false, false, false⟩

def tagsCol : Column := ⟨"tags", .set ["a", "b"], false, false, false, false⟩

def tags2Col : Column := ⟨"tags2", .set ["b", "a"], false, false, false, false⟩

/-- The spec's end-to-end example table, extended with the two
order-swapped SET columns. -/
def exTable : Table :=
  ⟨"items", [idIntCol, statusCol, status2Col, tagsCol, tags2Col], [], "utf8", []⟩

def idRec : ColDict :=
  ⟨"id", "Integer", "int", "INTEGER", false, true, none, false, false, "id", none⟩

def statusRec : ColDict :=
  ⟨"status", "enum_status", "str", "ENUM", false, false, none, false, false, "status", some 1⟩

def status2Rec : ColDict :=
  ⟨"status2", "enum_status", "str", "ENUM", false, false, none, false, false, "status2", some 1⟩

def tagsRec : ColDict :=
  ⟨"tags", "set_tags", "str", "SET", false, false, none, false, false, "tags", some 1⟩

def tags2Rec : ColDict :=
  ⟨"tags2", "set_tags2", "str", "SET", false, false, none, false, false, "tags2", some 1⟩

def exDict : TableDict :=
  ⟨"Item", "items", [idRec, statusRec, status2Rec, tagsRec, tags2Rec],
   [("enum_status", "Enum(\"a\", \"b\")"), ("set_tags", "SET(\"a\", \"b\")"),
    ("set_tags2", "SET(\"b\", \"a\")")],
   "utf8", [], false, true⟩

/-- C2: within one table, dedup identity differs by kind.  (i) Two
enumeration columns whose value collections are equal as sets resolve to
one generated name; (ii) two multi-value-set columns with different
declared tuples (same values, different order included) resolve to two
distinct names, given that the table's column names are distinct; (iii) on
the spec's concrete example table, `status`/`status2` share `enum_status`
with a single emitted `Enum` definition, `tags`/`tags2` get `set_tags` and
`set_tags2` with two emitted `SET` definitions, and `id` is
primary-key/non-nullable/int. -/
theorem C2_within_table_identity :
    (∀ (t : Table) (data : TableDict) (i m p : List String),
      convert_table t = .ok (data, i, m, p) →
      ∀ (jx jy : Nat) (cx cy : Column) (vsx vsy : List String) (dx dy : ColDict),
        t.columns[jx]? = some cx → t.columns[jy]? = some cy →
        cx.type = .enum vsx → cy.type = .enum vsy →
        (∀ x, x ∈ vsx ↔ x ∈ vsy) →
        data.columns[jx]? = some dx → data.columns[jy]? = some dy →
        dx.type = dy.type) ∧
    (∀ (t : Table) (data : TableDict) (i m p : List String),
      convert_table t = .ok (data, i, m, p) →
      (t.columns.map Column.name).Nodup →
      ∀ (jx jy : Nat) (cx cy : Column) (vsx vsy : List String) (dx dy : ColDict),
        t.columns[jx]? = some cx → t.columns[jy]? = some cy →
        cx.type = .set vsx → cy.type = .set vsy → vsx ≠ vsy →
        data.columns[jx]? = some dx → data.columns[jy]? = some dy →
        dx.type ≠ dy.type) ∧
    convert_table exTable = .ok (exDict, ["Integer", "Enum"], ["SET"], []) := by
  refine ⟨?_, ?_, by decide⟩
  · intro t data i m p h jx jy cx cy vsx vsy dx dy hjx hjy htx hty hset hdx hdy
    exact same_table_enum_name h hjx hjy htx hty hset hdx hdy
  · intro t data i m p h hnd jx jy cx cy vsx vsy dx dy hjx hjy htx hty hne hdx hdy
    exact same_table_set_distinct h hnd hjx hjy htx hty hne hdx hdy

theorem C2_within_table_identity_witness :
    statusRec.type = status2Rec.type ∧ ¬ tagsRec.type = tags2Rec.type :=
  ⟨C2_within_table_identity.1 exTable exDict ["Integer", "Enum"] ["SET"] []
      (by decide) 1 2 statusCol status2Col ["a", "b"] ["b", "a"] statusRec status2Rec
      (by decide) (by decide) rfl rfl
      (fun x => by simp [List.mem_cons]; tauto) (by decide) (by decide),
   C2_within_table_identity.2.1 exTable exDict ["Integer", "Enum"] ["SET"] []
      (by decide) (by decide) 3 4 tagsCol tags2Col ["a", "b"] ["b", "a"] tagsRec tags2Rec
      (by decide) (by decide) rfl rfl (by decide) (by decide) (by decide)⟩

/-! ### C9: determinism and first-sighting characterization -/

/-- C9: the translation is a pure function of its input — two runs over
equal table lists (same tables, same order) produce identical outputs,
including all generated names and rendered definitions — and the generated
enum/set names are determined purely by first-sighting order: a column's
generated name is the kind prefix plus the name of the first column (in
column order, within the owning table) presenting the same value identity.
The embedding fixes the iteration order of Python's hash-ordered
`frozenset`/`set` structures, which is where any real-world
nondeterminism of the source would live. -/
theorem C9_determinism_first_sighting :
    (∀ (wt ab : Bool) (ts1 ts2 : List Table), ts1 = ts2 →
      run_tables wt ab ts1 = run_tables wt ab ts2) ∧
    (∀ (t : Table) (data : TableDict) (i m p : List String) (j : Nat) (cj : Column)
      (vs : List String),
      convert_table t = .ok (data, i, m, p) →
      t.columns[j]? = some cj → cj.type = .enum vs →
      ∃ dj cw, data.columns[j]? = some dj ∧
        firstEnum (fsModel vs) t.columns = some cw ∧
        dj.type = "enum_" ++ cw.name) ∧
    (∀ (t : Table) (data : TableDict) (i m p : List String) (j : Nat) (cj : Column)
      (vs : List String),
      convert_table t = .ok (data, i, m, p) →
      t.columns[j]? = some cj → cj.type = .set vs →
      ∃ dj cw, data.columns[j]? = some dj ∧
        firstSet vs t.columns = some cw ∧
        dj.type = "set_" ++ cw.name) := by
  refine ⟨fun wt ab ts1 ts2 h => by rw [h], ?_, ?_⟩
  · intro t data i m p j cj vs h hj ht
    exact convert_enum_first h hj ht
  · intro t data i m p j cj vs h hj ht
    exact convert_set_first h hj ht

theorem C9_determinism_first_sighting_witness :
    run_tables false false [exTable] = run_tables false false [exTable] ∧
    (∃ dj cw, exDict.columns[2]? = some dj ∧
      firstEnum (fsModel ["b", "a"]) exTable.columns = some cw ∧
      dj.type = "enum_" ++ cw.name) ∧
    (∃ dj cw, exDict.columns[4]? = some dj ∧
      firstSet ["b", "a"] exTable.columns = some cw ∧
      dj.type = "set_" ++ cw.name) :=
  ⟨C9_determinism_first_sighting.1 false false [exTable] [exTable] rfl,
   C9_determinism_first_sighting.2.1 exTable exDict ["Integer", "Enum"] ["SET"] []
     2 status2Col ["b", "a"] (by decide) (by decide) rfl,
   C9_determinism_first_sighting.2.2 exTable exDict ["Integer", "Enum"] ["SET"] []
     4 tags2Col ["b", "a"] (by decide) (by decide) rfl⟩

/-! ### C1: cross-table behaviour of the registry -/

def stateCol : Column := ⟨"state", .enum ["a", "b"], false, false, false, false⟩

def c1tA : Table := ⟨"t1", [statusCol], [], "utf8", []⟩

def c1tB : Table := ⟨"t2", [stateCol], [], "utf8", []⟩

def stateRec : ColDict :=
  ⟨"state", "enum_state", "str", "ENUM", false, false, none, false, false, "state", some 1⟩

def c1dA : TableDict :=
  ⟨"T1", "t1", [statusRec], [("enum_status", "Enum(\"a\", \"b\")")], "utf8", [], false, false⟩

def c1dB : TableDict :=
  ⟨"T2", "t2", [stateRec], [("enum_state", "Enum(\"a\", \"b\")")], "utf8", [], false, false⟩

def c1out : RunOut := ⟨[c1dA, c1dB], ["Enum"], [], []⟩

/-- Counterexample to C1 as stated: a run over two tables whose single
enumeration columns (`t1.status`, `t2.state`) have the **same** permitted
value set `{a, b}` assigns them **different** generated names
(`enum_status` vs `enum_state` — the registry is local to each table and
derives the name from that table's first owning column), and the
definition for the value set `{a, b}` is emitted **twice** in the run,
once under each name (the run-level filter only suppresses exact
`(name, definition)` duplicates). -/
theorem C1_counterexample_cross_table :
    run_tables false false [c1tA, c1tB] = .ok c1out ∧
    (c1out.tables.map fun d => d.columns.map ColDict.type) =
      [["enum_status"], ["enum_state"]] ∧
    ("enum_status" : String) ≠ "enum_state" ∧
    (c1out.tables.map TableDict.enums) =
      [[("enum_status", "Enum(\"a\", \"b\")")], [("enum_state", "Enum(\"a\", \"b\")")]] :=
  ⟨by decide, by decide, by decide, by decide⟩

/-- Amended C1: the enum registry is per-table, so the same-name guarantee
holds **within one table**: two enumeration columns of one table whose
value sets are equal resolve to one generated name.  Across the whole run,
what is emitted at most once is each `(generated name, rendered
definition)` pair: the run-level seen-filter guarantees that the
concatenation of all tables' emitted definition lists contains no
duplicate pair — a definition already emitted (under the same name) by an
earlier table is suppressed on every later sighting.  Columns with equal
value sets in *different* tables may receive different generated names
(each derived from its own table's first owning column), in which case
the definition is emitted once under each distinct name. -/
theorem C1_enum_dedup_amended :
    (∀ (t : Table) (data : TableDict) (i m p : List String),
      convert_table t = .ok (data, i, m, p) →
      ∀ (jx jy : Nat) (cx cy : Column) (vsx vsy : List String) (dx dy : ColDict),
        t.columns[jx]? = some cx → t.columns[jy]? = some cy →
        cx.type = .enum vsx → cy.type = .enum vsy →
        (∀ x, x ∈ vsx ↔ x ∈ vsy) →
        data.columns[jx]? = some dx → data.columns[jy]? = some dy →
        dx.type = dy.type) ∧
    (∀ (wt ab : Bool) (ts : List Table) (r : RunOut),
      run_tables wt ab ts = .ok r →
      ((r.tables.map TableDict.enums).flatten).Nodup) := by
  constructor
  · intro t data i m p h jx jy cx cy vsx vsy dx dy hjx hjy htx hty hset hdx hdy
    exact same_table_enum_name h hjx hjy htx hty hset hdx hdy
  · intro wt ab ts r h
    exact (runGo_nodup h).1

theorem C1_enum_dedup_amended_witness :
    statusRec.type = status2Rec.type ∧
    ((c1out.tables.map TableDict.enums).flatten).Nodup :=
  ⟨C1_enum_dedup_amended.1 exTable exDict ["Integer", "Enum"] ["SET"] []
      (by decide) 1 2 statusCol status2Col ["a", "b"] ["b", "a"] statusRec status2Rec
      (by decide) (by decide) rfl rfl
      (fun x => by simp [List.mem_cons]; tauto) (by decide) (by decide),
   C1_enum_dedup_amended.2 false false [c1tA, c1tB] c1out (by decide)⟩

end Tosqla
